import Mathlib

/-!
# Verification of the odotjs object/factory construction core

Shallow embedding of `src/dist/o.js` (the complete build of the core: it is
the variant containing the two-pass option resolver `mapOptions` and the
`ignoreOptions` factory flag described by the specification; `src/o.js` is an
earlier revision of the same module).

Modelling choices:
* A JS object is a record of own enumerable properties (an association list,
  insertion ordered, as JS property tables are) plus an internal prototype
  link `[[Prototype]]` (`iproto`).  The heap is a list of objects addressed
  by position; allocation appends.
* JS values are `undefined`, `null`, booleans, numbers (as `Int`; the core
  never performs arithmetic), strings, object references, and function
  references.  Function ids 0 and 1 are the module's own `share` and
  `defaultInit`; ids `k+2` are caller-supplied functions whose semantics are
  given by an explicit environment `FunEnv` (heap × receiver × args →
  heap × result), mirroring arbitrary user callbacks.
* `for (prop in source)` enumerates own enumerable properties first and then
  the prototype chain, skipping shadowed names; `enumOf` computes that
  snapshot.  `extend`'s reads of each source are modelled as this per-source
  snapshot; call sites in the theorems carry non-aliasing hypotheses under
  which this coincides with JS's live enumeration.
* Prototype chains built by the library always point to previously allocated
  objects, so chain walks use `address + 1` as fuel; `HeapWF` states that
  discipline and is preserved by every operation of the model.
* Fallible operations (strict-mode `TypeError`s such as setting a property
  on a primitive) return `Option`.
-/

namespace Odot

/-- A JavaScript value as used by the odotjs core. -/
inductive JSVal where
  | undef : JSVal
  | nullv : JSVal
  | boolean : Bool → JSVal
  | number : Int → JSVal
  | str : String → JSVal
  | ref : Nat → JSVal
  | fn : Nat → JSVal
deriving DecidableEq, Repr

/-- A JavaScript object: own enumerable properties in insertion order plus
the internal `[[Prototype]]` link (`none` models a chain end such as
`Object.prototype`, which contributes no enumerable properties). -/
structure JSObj where
  props : List (String × JSVal)
  iproto : Option Nat
deriving DecidableEq, Repr

/-- The heap: objects addressed by list position; allocation appends. -/
abbrev Heap := List JSObj

def getObj (h : Heap) (a : Nat) : Option JSObj := h[a]?

/-- Allocate a fresh object, returning the new heap and its address. -/
def alloc (h : Heap) (ob : JSObj) : Heap × Nat := (h ++ [ob], h.length)

/-- JS property-table update: overwrite in place if present, else append. -/
def setEntry : List (String × JSVal) → String → JSVal → List (String × JSVal)
  | [], k, v => [(k, v)]
  | (k', v') :: rest, k, v =>
      if k' = k then (k, v) :: rest else (k', v') :: setEntry rest k v

/-- `obj[k] = v` on the object at address `a` (no-op on a dangling address,
which no reachable execution produces). -/
def setOwn (h : Heap) (a : Nat) (k : String) (v : JSVal) : Heap :=
  match h[a]? with
  | none => h
  | some ob => List.set h a { ob with props := setEntry ob.props k v }

/-- Own-property read. -/
def getOwn (h : Heap) (a : Nat) (k : String) : Option JSVal :=
  match getObj h a with
  | none => none
  | some ob => ob.props.lookup k

/-- JS truthiness (`NaN` does not arise: the core performs no arithmetic). -/
def truthy : JSVal → Bool
  | .undef => false
  | .nullv => false
  | .boolean b => b
  | .number n => n ≠ 0
  | .str s => s ≠ ""
  | .ref _ => true
  | .fn _ => true

/-- `typeof v === 'function'`. -/
def isFunction : JSVal → Bool
  | .fn _ => true
  | _ => false

/-- JS `a || b`. -/
def jsOr (a b : JSVal) : JSVal := if truthy a then a else b

/-- Prototype-chain lookup: first object on the chain owning `k`, together
with the value (fuel `a + 1` suffices on well-formed heaps, where chains
strictly descend). -/
def chainFindF (h : Heap) : Nat → Nat → String → Option (Nat × JSVal)
  | 0, _, _ => none
  | fuel + 1, a, k =>
      match getObj h a with
      | none => none
      | some ob =>
          match ob.props.lookup k with
          | some v => some (a, v)
          | none =>
              match ob.iproto with
              | some p => chainFindF h fuel p k
              | none => none

/-- `v[k]`: property lookup through the prototype chain; primitives yield
`undefined` (the core never reads properties off primitives). -/
def getProp (h : Heap) (v : JSVal) (k : String) : JSVal :=
  match v with
  | .ref a =>
      match chainFindF h (a + 1) a k with
      | some (_, w) => w
      | none => .undef
  | _ => JSVal.undef

/-- Whether `k` resolves somewhere on the object's prototype chain. -/
def hasChainProp (h : Heap) (a : Nat) (k : String) : Bool :=
  (chainFindF h (a + 1) a k).isSome

/-- Whether `k` is an own property of the object at `a`. -/
def hasOwn (h : Heap) (a : Nat) (k : String) : Bool :=
  (getOwn h a k).isSome

/-- The object's own enumerable keys, in insertion order. -/
def ownKeys (h : Heap) (a : Nat) : List String :=
  match getObj h a with
  | none => []
  | some ob => ob.props.map Prod.fst

/-- The prototype chain starting at `a` (addresses, front first). -/
def chainListF (h : Heap) : Nat → Nat → List Nat
  | 0, _ => []
  | fuel + 1, a =>
      a :: (match getObj h a with
      | none => []
      | some ob =>
          match ob.iproto with
          | some p => chainListF h fuel p
          | none => [])

def chainOf (h : Heap) (a : Nat) : List Nat := chainListF h (a + 1) a

/-- Drop pairs whose key was already seen (later duplicates lose, as in a JS
`for (prop in ...)` walk). -/
def dedupKeys : List (String × JSVal) → List String → List (String × JSVal)
  | [], _ => []
  | (k, v) :: rest, seen =>
      if k ∈ seen then dedupKeys rest seen
      else (k, v) :: dedupKeys rest (k :: seen)

/-- The `for (prop in obj)` snapshot from address `a`: own enumerable
properties first, then the prototype chain, shadowed names skipped. -/
def enumPairsF (h : Heap) : Nat → Nat → List String → List (String × JSVal)
  | 0, _, _ => []
  | fuel + 1, a, seen =>
      match getObj h a with
      | none => []
      | some ob =>
          let own := dedupKeys ob.props seen
          match ob.iproto with
          | some p => own ++ enumPairsF h fuel p (seen ++ own.map Prod.fst)
          | none => own

/-- `for (prop in v)`: primitives and `null`/`undefined` enumerate nothing
(the core only ever enumerates plain mappings). -/
def enumOf (h : Heap) (v : JSVal) : List (String × JSVal) :=
  match v with
  | .ref a => enumPairsF h (a + 1) a []
  | _ => []

/-- Chains strictly descend and (hence) terminate: the discipline every
object built by the model obeys (`Object.create` links to an existing,
hence lower, address). -/
def heapWFbAux : List JSObj → Nat → Bool
  | [], _ => true
  | ob :: rest, i =>
      (match ob.iproto with
       | some p => decide (p < i)
       | none => true) && heapWFbAux rest (i + 1)

def heapWFb (h : Heap) : Bool := heapWFbAux h 0

abbrev HeapWF (h : Heap) : Prop := heapWFb h = true

/-! ## The odotjs core, translated from `src/dist/o.js` -/

/-- `extend(obj, source)` body for one source: assign each enumerated pair
onto the target, in order (`obj[prop] = source[prop]`). -/
def assignAll (h : Heap) (t : Nat) : List (String × JSVal) → Heap
  | [] => h
  | (k, v) :: rest => assignAll (setOwn h t k v) t rest

/-- `extend = function extend(obj) { var args = slice(arguments, 1);
args.forEach(function (source) { for (prop in source) obj[prop] =
source[prop]; }); return obj; }` — the returned value is the target itself,
see `extendRet`. -/
def extend (h : Heap) (t : Nat) (sources : List JSVal) : Heap :=
  sources.foldl (fun h' s => assignAll h' t (enumOf h' s)) h

/-- `extend` together with its return value (`return obj`). -/
def extendRet (h : Heap) (t : Nat) (sources : List JSVal) : Heap × JSVal :=
  (extend h t sources, .ref t)

/-- Address of the module-level `plugins = {}` collection: the registry is
allocated by the module initializer before anything else, so it sits at
address 0 of every reachable heap. -/
def PLUG : Nat := 0

/-- `addPlugins = function (newPlugins) { extend(plugins, newPlugins); }` -/
def addPlugins (h : Heap) (newPlugins : JSVal) : Heap :=
  extend h PLUG [newPlugins]

/-- `share = function share(name, prop) { this.proto[name] = prop; }` —
fails (strict-mode `TypeError`) when `this.proto` is not an object; property
names are strings (the core only ever passes string names). -/
def sharePrim (h : Heap) (thisV : JSVal) (name : JSVal) (v : JSVal) :
    Option Heap :=
  match getProp h thisV "proto" with
  | .ref p =>
      match name with
      | .str s => some (setOwn h p s v)
      | _ => none
  | _ => none

/-- `bless = function bless(proto) { proto.share = share;
extend(proto, plugins); return proto; }` -/
def blessAt (h : Heap) (p : Nat) : Heap :=
  extend (setOwn h p "share" (.fn 0)) p [.ref PLUG]

/-- Semantics of caller-supplied functions: id, heap, receiver, arguments →
updated heap and result (`none` models an uncaught host error). -/
def FunEnv : Type :=
  Nat → Heap → JSVal → List JSVal → Option (Heap × JSVal)

/-- Function application.  Id 0 is the module's `share`; id 1 is
`defaultInit = function init() { return this; }`; ids `k + 2` are
caller-supplied functions interpreted by `env`.  Calling a non-function
value is a host `TypeError`. -/
def callFn (env : FunEnv) (h : Heap) (f thisV : JSVal) (args : List JSVal) :
    Option (Heap × JSVal) :=
  match f with
  | .fn 0 =>
      match sharePrim h thisV (args.getD 0 .undef) (args.getD 1 .undef) with
      | some h' => some (h', .undef)
      | none => none
  | .fn 1 => some (h, thisV)
  | .fn (k + 2) => env k h thisV args
  | _ => none

/-! ### The option resolver (`mapOptions`, exported also as `getConfig`) -/

/-- Comma-splitting of the declared-name string (`optionNames.split(
/\s*\,\s*/)`), written character-wise so the kernel can evaluate it. -/
def splitCommaAux : List Char → List Char → List (List Char)
  | [], acc => [acc.reverse]
  | c :: cs, acc =>
      if c = ',' then acc.reverse :: splitCommaAux cs []
      else splitCommaAux cs (c :: acc)

def trimChars (l : List Char) : List Char :=
  ((l.dropWhile (· = ' ')).reverse.dropWhile (· = ' ')).reverse

def splitNames (s : String) : List String :=
  (splitCommaAux s.data []).map fun cs => String.mk (trimChars cs)

/-- First pass of `mapOptions`: `names.forEach(function (optionName) {
if (args[0] && args[0][optionName]) { config[optionName] =
args[0][optionName]; isHash = true; } })`. -/
def namedPass (h : Heap) (a0 : JSVal) (names : List String)
    (st : List (String × JSVal) × Bool) : List (String × JSVal) × Bool :=
  names.foldl
    (fun st' n =>
      if truthy a0 && truthy (getProp h a0 n) then
        (setEntry st'.1 n (getProp h a0 n), true)
      else st')
    st

/-- `mapOptions` over an already-split name list: the named pass, then —
only when no name matched in the first value — the positional pass
`names.forEach(function (optionName, index) { config[optionName] =
args[index]; })`. -/
def mapOptionsN (h : Heap) (names : List String) (args : List JSVal) :
    List (String × JSVal) :=
  let a0 := args.getD 0 .undef
  let st := namedPass h a0 names ([], false)
  if st.2 then st.1
  else
    (List.enum names).foldl
      (fun cfg p => setEntry cfg p.2 (args.getD p.1 .undef)) st.1

/-- `mapOptions = function mapOptions(optionNames) { ... }` — the resolver
on the raw comma-separated declaration string. -/
def mapOptions (h : Heap) (optionNames : String) (args : List JSVal) :
    List (String × JSVal) :=
  mapOptionsN h (splitNames optionNames) args

/-! ### The object constructor `o` -/

def oNames : List String :=
  splitNames "sharedProperties, instanceProperties, initFunction"

/-- Everything `o` does before invoking the initializer. -/
structure BuildOut where
  heap : Heap
  objAddr : Nat
  protoAddr : Nat
  initF : JSVal
deriving DecidableEq, Repr

/-- The construction part of `o(sharedProperties, instanceProperties,
initFunction)`: resolve options, default the initializer, take
`config.sharedProperties || {}` as the prototype (allocating a fresh empty
object when falsy; a truthy non-object fails in `bless`), bless it, allocate
`Object.create(proto)`, assign the `proto` back-reference (the `{proto:
proto}` literal of the source is a temporary whose sole effect is that
assignment), and copy `config.instanceProperties` on.  Returns the heap, the
new object, the prototype, and the resolved initializer. -/
def oBuild (h0 : Heap) (args : List JSVal) : Option BuildOut :=
  let cfg := mapOptionsN h0 oNames args
  let initF := jsOr ((cfg.lookup "initFunction").getD .undef) (.fn 1)
  let spv := (cfg.lookup "sharedProperties").getD .undef
  let ipv := (cfg.lookup "instanceProperties").getD .undef
  let ph : Option (Heap × Nat) :=
    if truthy spv then
      match spv with
      | .ref p => some (h0, p)
      | _ => none
    else some (alloc h0 ⟨[], none⟩)
  match ph with
  | none => none
  | some (h1, p) =>
      let h2 := blessAt h1 p
      let (h3, a) := alloc h2 ⟨[], some p⟩
      let h4 := setOwn h3 a "proto" (.ref p)
      let h5 := assignAll h4 a (enumOf h4 ipv)
      some ⟨h5, a, p, initF⟩

/-- `o = function o(sharedProperties, instanceProperties, initFunction)
{ ...; return config.initFunction.call(obj); }` -/
def o (env : FunEnv) (h0 : Heap) (args : List JSVal) :
    Option (Heap × JSVal) :=
  match oBuild h0 args with
  | none => none
  | some b => callFn env b.heap b.initF (.ref b.objAddr) []

/-! ### The factory constructor `o.factory` -/

def factoryNames : List String :=
  splitNames
    "sharedProperties, defaultProperties, instanceInit, factoryInit, ignoreOptions"

/-- The state captured by the closure `o.factory` returns: the resolved
configuration record and the factory-scoped instance `initObj = o()`. -/
structure FactoryState where
  sharedProperties : JSVal
  defaultProperties : JSVal
  instanceInit : JSVal
  factoryInit : JSVal
  ignoreOptions : JSVal
  initObj : Nat
deriving DecidableEq, Repr

/-- Factory creation (`o.factory(...)` up to returning the closure): build
`initObj = o()`, resolve the five options, default `instanceInit`, and run
`factoryInit` with `initObj` as receiver when it is a function.  The
`bless` of the returned closure only decorates the function object itself
and is not observed by any claim, so it is not modelled. -/
def factoryMake (env : FunEnv) (h0 : Heap) (args : List JSVal) :
    Option (Heap × FactoryState) :=
  match o env h0 [] with
  | some (h1, .ref iAddr) =>
      let cfg := mapOptionsN h1 factoryNames args
      let st : FactoryState :=
        { sharedProperties := (cfg.lookup "sharedProperties").getD .undef
          defaultProperties := (cfg.lookup "defaultProperties").getD .undef
          instanceInit :=
            jsOr ((cfg.lookup "instanceInit").getD .undef) (.fn 1)
          factoryInit := (cfg.lookup "factoryInit").getD .undef
          ignoreOptions := (cfg.lookup "ignoreOptions").getD .undef
          initObj := iAddr }
      if isFunction st.factoryInit then
        match callFn env h1 st.factoryInit (.ref iAddr) [] with
        | some (h2, _) => some (h2, st)
        | none => none
      else some (h1, st)
  | _ => none

/-- One factory invocation, up to (and including) the `o` call:
`var defaultProperties = config.defaultProperties || {},
sharedProperties = extend(config.sharedProperties || {}, initObj),
instance = (config.ignoreOptions) ? defaultProperties
         : extend({}, defaultProperties, options),
obj = extend(o(sharedProperties, instance))` — `extend` with a single
argument returns its argument unchanged. -/
def fcBuild (env : FunEnv) (h0 : Heap) (st : FactoryState)
    (options : JSVal) : Option (Heap × JSVal) :=
  let dpPair :=
    if truthy st.defaultProperties then (h0, st.defaultProperties)
    else
      let pr := alloc h0 ⟨[], none⟩
      (pr.1, JSVal.ref pr.2)
  let h1 := dpPair.1
  let dpv := dpPair.2
  let spOpt : Option (Heap × Nat) :=
    if truthy st.sharedProperties then
      match st.sharedProperties with
      | .ref a => some (h1, a)
      | _ => none
    else
      let pr := alloc h1 ⟨[], none⟩
      some (pr.1, pr.2)
  match spOpt with
  | none => none
  | some (h2, sp) =>
      let h3 := extend h2 sp [.ref st.initObj]
      let instPair :=
        if truthy st.ignoreOptions then (h3, dpv)
        else
          let pr := alloc h3 ⟨[], none⟩
          (extend pr.1 pr.2 [dpv, options], JSVal.ref pr.2)
      o env instPair.1 [.ref sp, instPair.2]

/-- A full factory invocation: the construction above, then
`return ((typeof init === 'function') ? init.call(obj, options) : obj);`. -/
def factoryCall (env : FunEnv) (h0 : Heap) (st : FactoryState)
    (options : JSVal) : Option (Heap × JSVal) :=
  match fcBuild env h0 st options with
  | none => none
  | some (h, objv) =>
      if isFunction st.instanceInit then
        callFn env h st.instanceInit objv [options]
      else some (h, objv)

/-- The module-initial heap: just the empty plugin registry. -/
def hInit : Heap := [⟨[], none⟩]

/-- A function environment whose user functions do nothing (placeholder for
examples that never call user functions). -/
def env0 : FunEnv := fun _ h _ _ => some (h, .undef)

/-- An environment whose user functions return the number 42 (an initializer
substituting a value different from its receiver). -/
def env1 : FunEnv := fun _ h _ _ => some (h, .number 42)

/-- An environment whose user functions return the string "substituted". -/
def env2 : FunEnv := fun _ h _ _ => some (h, .str "substituted")

/-- Registry, a shared object `{sharedProp: 1}`, an instance-property
object `{instanceProp: 2}`. -/
def hC4 : Heap :=
  [⟨[], none⟩, ⟨[("sharedProp", .number 1)], none⟩,
    ⟨[("instanceProp", .number 2)], none⟩]

/-- Registry, a plain object Q, and a CapabilitySet S whose own `proto`
entry points at Q rather than at S itself. -/
def hC5b : Heap :=
  [⟨[], none⟩, ⟨[], none⟩, ⟨[("proto", .ref 1)], none⟩]

/-- Registry, an empty CapabilitySet, and instance properties that
themselves carry a `proto` entry. -/
def hC10 : Heap :=
  [⟨[], none⟩, ⟨[], none⟩, ⟨[("proto", .number 42)], none⟩]

/-- Registry, a delegation base `{inh: 7}`, a source `{own: 1}` delegating
to it, and a target `{old: 0}`. -/
def hC9 : Heap :=
  [⟨[], none⟩, ⟨[("inh", .number 7)], none⟩,
    ⟨[("own", .number 1)], some 1⟩, ⟨[("old", .number 0)], none⟩]

/-- The heap `o(hC4[1], hC4[2])` produces: blessed CapabilitySet at 1,
Instance at 3. -/
def hC4r : Heap :=
  [⟨[], none⟩,
    ⟨[("sharedProp", .number 1), ("share", .fn 0)], none⟩,
    ⟨[("instanceProp", .number 2)], none⟩,
    ⟨[("proto", .ref 1), ("instanceProp", .number 2)], some 1⟩]

/-- The heap `o(hC5b[2], undefined)` produces: Instance at 3 delegating to
the CapabilitySet at 2 whose own `proto` entry points at 1. -/
def hC5r : Heap :=
  [⟨[], none⟩, ⟨[], none⟩,
    ⟨[("proto", .ref 1), ("share", .fn 0)], none⟩,
    ⟨[("proto", .ref 2)], some 2⟩]

/-- The heap `o(hC10[1], hC10[2])` produces: the instance-property object's
own `proto` entry has overwritten the back-reference on the Instance at
3. -/
def hC10r : Heap :=
  [⟨[], none⟩, ⟨[("share", .fn 0)], none⟩,
    ⟨[("proto", .number 42)], none⟩,
    ⟨[("proto", .number 42)], some 1⟩]

/-- The heap a factory with a user `instanceInit` (fn 2) is created in:
registry, the blessed empty CapabilitySet of `initObj`, and `initObj`. -/
def h8 : Heap :=
  [⟨[], none⟩, ⟨[("share", .fn 0)], none⟩, ⟨[("proto", .ref 1)], some 1⟩]

/-- The factory state `o.factory(undefined, undefined, fn 2)` captures over
`h8`. -/
def st8 : FactoryState := ⟨.undef, .undef, .fn 2, .undef, .undef, 2⟩

/-- The heap one invocation of that factory produces (fresh default
properties at 3, per-call CapabilitySet at 4, instance properties at 5,
Instance at 6). -/
def h8r : Heap :=
  [⟨[], none⟩, ⟨[("share", .fn 0)], none⟩, ⟨[("proto", .ref 1)], some 1⟩,
    ⟨[], none⟩, ⟨[("proto", .ref 1), ("share", .fn 0)], none⟩, ⟨[], none⟩,
    ⟨[("proto", .ref 4)], some 4⟩]

/-- Registry, CapabilitySet S, default properties `{foo: 'bar'}`, options
`{foo: 'baz'}`, and a factory-scoped instance (CapabilitySet at 4,
instance at 5). -/
def h0w : Heap :=
  [⟨[], none⟩, ⟨[], none⟩, ⟨[("foo", .str "bar")], none⟩,
    ⟨[("foo", .str "baz")], none⟩, ⟨[("share", .fn 0)], none⟩,
    ⟨[("proto", .ref 4)], some 4⟩]

/-- A factory state over `h0w` with `ignoreOptions` set. -/
def stW : FactoryState := ⟨.ref 1, .ref 2, .fn 1, .undef, .boolean true, 5⟩

/-- The heap one invocation of that factory leaves behind. -/
def hW1 : Heap :=
  [⟨[], none⟩, ⟨[("proto", .ref 4), ("share", .fn 0)], none⟩,
    ⟨[("foo", .str "bar")], none⟩, ⟨[("foo", .str "baz")], none⟩,
    ⟨[("share", .fn 0)], none⟩, ⟨[("proto", .ref 4)], some 4⟩,
    ⟨[("proto", .ref 1), ("foo", .str "bar")], some 1⟩]

/-- Registry and the named-options object of the spec's `ignoreOptions`
example: `{defaultProperties: {foo: 'bar'}, ignoreOptions: true}` called
with `{foo: 'baz'}`. -/
def hF3 : Heap :=
  [⟨[], none⟩,
    ⟨[("defaultProperties", .ref 2), ("ignoreOptions", .boolean true)],
      none⟩,
    ⟨[("foo", .str "bar")], none⟩, ⟨[("foo", .str "baz")], none⟩]

/-- Registry, CapabilitySet S (shared), a prototype carrying `share`, and
a factory-scoped instance at 3 owning a `getCount` accessor — the shape a
`factoryInit` using `share` leaves behind. -/
def hC2 : Heap :=
  [⟨[], none⟩, ⟨[], none⟩, ⟨[("share", .fn 0)], none⟩,
    ⟨[("proto", .ref 2), ("getCount", .fn 2)], some 2⟩]

/-- A factory state over `hC2`: `sharedProperties` is the object at 1, the
defaulted `instanceInit`, factory-scoped instance at 3. -/
def stC2 : FactoryState := ⟨.ref 1, .undef, .fn 1, .undef, .undef, 3⟩

/-- The heap the first invocation of that factory leaves behind: the
factory-scoped instance's entries are merged onto the object at 1, and the
produced instance at 6 delegates to it. -/
def hC2a : Heap :=
  [⟨[], none⟩,
    ⟨[("proto", .ref 2), ("getCount", .fn 2), ("share", .fn 0)], none⟩,
    ⟨[("share", .fn 0)], none⟩,
    ⟨[("proto", .ref 2), ("getCount", .fn 2)], some 2⟩,
    ⟨[], none⟩, ⟨[], none⟩, ⟨[("proto", .ref 1)], some 1⟩]

/-- The heap the second invocation leaves behind: the merge onto the
object at 1 is repeated (idempotently), and the second instance at 9
delegates to the same object at 1. -/
def hC2b : Heap :=
  [⟨[], none⟩,
    ⟨[("proto", .ref 2), ("getCount", .fn 2), ("share", .fn 0)], none⟩,
    ⟨[("share", .fn 0)], none⟩,
    ⟨[("proto", .ref 2), ("getCount", .fn 2)], some 2⟩,
    ⟨[], none⟩, ⟨[], none⟩, ⟨[("proto", .ref 1)], some 1⟩,
    ⟨[], none⟩, ⟨[], none⟩, ⟨[("proto", .ref 1)], some 1⟩]

/-- Left-biased choice on optional values (`optOr a b` is `a` when present,
else `b`); JS assignment-overwrite chains are expressed with it. -/
def optOr (a b : Option JSVal) : Option JSVal :=
  match a with
  | some v => some v
  | none => b

/-- The value the last source carrying `k` would assign (sources processed
left to right, later ones overriding), starting from a default `acc`. -/
def lastLookupFrom (h : Heap) (srcs : List JSVal) (k : String)
    (acc : Option JSVal) : Option JSVal :=
  srcs.foldl (fun a s => optOr ((enumOf h s).lookup k) a) acc

/-- The property table after a sequence of JS assignments. -/
def setEntries (qs : List (String × JSVal)) :
    List (String × JSVal) → List (String × JSVal)
  | [] => qs
  | (k, v) :: rest => setEntries (setEntry qs k v) rest

/-- The heap midway through `o(sharedProperties, instanceProperties)` on
the positional path: prototype blessed, instance allocated, `proto`
back-reference set — instance properties not yet copied. -/
def oPosMid (h : Heap) (sp : Nat) : Heap :=
  setOwn (blessAt h sp ++ [⟨[], some sp⟩]) (List.length (blessAt h sp))
    "proto" (.ref sp)

/-- The heap produced by `o(sharedProperties, instanceProperties)` on the
positional path (prototype supplied as a reference, no initializer): bless
the prototype, allocate the instance, set the `proto` back-reference, copy
the instance properties.  `oBuild_pos` proves `oBuild` lands here. -/
def oPosHeap (h : Heap) (sp : Nat) (ipv : JSVal) : Heap :=
  assignAll (oPosMid h sp) (List.length (blessAt h sp))
    (enumOf (oPosMid h sp) ipv)

/-- The heap and instance address produced by one factory invocation whose
configured `sharedProperties` is the object reference `sp` (the path
`fcBuild_pos` proves `fcBuild` takes). -/
def fcPos (h0 : Heap) (st : FactoryState) (sp : Nat) (options : JSVal) :
    Heap × Nat :=
  let dpPair :=
    if truthy st.defaultProperties then (h0, st.defaultProperties)
    else
      let pr := alloc h0 ⟨[], none⟩
      (pr.1, JSVal.ref pr.2)
  let h3 := extend dpPair.1 sp [.ref st.initObj]
  let instPair :=
    if truthy st.ignoreOptions then (h3, dpPair.2)
    else
      let pr := alloc h3 ⟨[], none⟩
      (extend pr.1 pr.2 [dpPair.2, options], JSVal.ref pr.2)
  (oPosHeap instPair.1 sp instPair.2, List.length instPair.1)

/-! ## Basic lemmas about the heap primitives -/

theorem optOr_assoc (a b c : Option JSVal) :
    optOr (optOr a b) c = optOr a (optOr b c) := by
  cases a <;> simp [optOr]

theorem optOr_none (a : Option JSVal) : optOr a none = a := by
  cases a <;> simp [optOr]

theorem lookup_cons (k k0 : String) (v0 : JSVal)
    (rest : List (String × JSVal)) :
    List.lookup k ((k0, v0) :: rest) =
      if k = k0 then some v0 else List.lookup k rest := by
  by_cases h : k = k0
  · simp [List.lookup, h]
  · simp [List.lookup, h, beq_eq_false_iff_ne.mpr h]

theorem setEntry_lookup (ps : List (String × JSVal)) (k k' : String)
    (v : JSVal) :
    (setEntry ps k v).lookup k' = if k' = k then some v else ps.lookup k' := by
  induction ps with
  | nil =>
      show List.lookup k' [(k, v)] = _
      rw [lookup_cons]
  | cons p rest ih =>
      obtain ⟨k0, v0⟩ := p
      by_cases h0 : k0 = k
      · subst h0
        rw [setEntry, if_pos rfl, lookup_cons, lookup_cons]
        by_cases hk : k' = k0 <;> simp [hk]
      · rw [setEntry, if_neg h0, lookup_cons, lookup_cons, ih]
        by_cases hk : k' = k0
        · subst hk
          simp [h0]
        · simp [hk]

theorem setEntry_keys_of_mem (ps : List (String × JSVal)) (k : String)
    (v : JSVal) (hmem : (ps.lookup k).isSome) :
    (setEntry ps k v).map Prod.fst = ps.map Prod.fst := by
  induction ps with
  | nil => simp [List.lookup] at hmem
  | cons p rest ih =>
      obtain ⟨k0, v0⟩ := p
      by_cases h0 : k0 = k
      · subst h0; simp [setEntry]
      · rw [lookup_cons, if_neg (fun hc : k = k0 => h0 hc.symm)] at hmem
        simp [setEntry, h0, ih hmem]

theorem setEntry_keys_of_not_mem (ps : List (String × JSVal)) (k : String)
    (v : JSVal) (hmem : ps.lookup k = none) :
    (setEntry ps k v).map Prod.fst = ps.map Prod.fst ++ [k] := by
  induction ps with
  | nil => simp [setEntry]
  | cons p rest ih =>
      obtain ⟨k0, v0⟩ := p
      by_cases h0 : k0 = k
      · subst h0
        rw [lookup_cons, if_pos rfl] at hmem
        exact absurd hmem (by simp)
      · rw [lookup_cons, if_neg (fun hc : k = k0 => h0 hc.symm)] at hmem
        simp [setEntry, h0, ih hmem]

theorem setEntry_isSome_mono (ps : List (String × JSVal)) (k k' : String)
    (v : JSVal) (hs : (ps.lookup k').isSome) :
    ((setEntry ps k v).lookup k').isSome := by
  rw [setEntry_lookup]
  by_cases hk : k' = k <;> simp [hk, hs]

theorem lt_of_getObj_some (h : Heap) (a : Nat) (ob : JSObj)
    (hg : getObj h a = some ob) : a < List.length h := by
  unfold getObj at hg
  exact (List.getElem?_eq_some.mp hg).1

theorem length_setOwn (h : Heap) (a : Nat) (k : String) (v : JSVal) :
    (setOwn h a k v).length = h.length := by
  unfold setOwn
  cases hg : h[a]? <;> simp

theorem getObj_setOwn_ne (h : Heap) (a a' : Nat) (k : String) (v : JSVal)
    (hne : a' ≠ a) : getObj (setOwn h a k v) a' = getObj h a' := by
  unfold setOwn getObj
  cases hg : h[a]?
  · rfl
  · exact List.getElem?_set_ne (fun hc => hne hc.symm)

theorem getObj_setOwn_self (h : Heap) (a : Nat) (k : String) (v : JSVal)
    (ob : JSObj) (hg : getObj h a = some ob) :
    getObj (setOwn h a k v) a =
      some { ob with props := setEntry ob.props k v } := by
  unfold setOwn getObj
  unfold getObj at hg
  rw [hg]
  exact List.getElem?_set_eq_of_lt _ (lt_of_getObj_some h a ob hg)

theorem getObj_append_lt (h : Heap) (x : JSObj) (a : Nat)
    (hlt : a < List.length h) : getObj (h ++ [x]) a = getObj h a := by
  unfold getObj
  exact List.getElem?_append_left hlt

theorem lookup_none_of_not_mem (ps : List (String × JSVal)) (k : String)
    (hk : k ∉ ps.map Prod.fst) : ps.lookup k = none := by
  induction ps with
  | nil => rfl
  | cons p rest ih =>
      obtain ⟨k0, v0⟩ := p
      simp only [List.map, List.mem_cons] at hk
      push_neg at hk
      rw [lookup_cons, if_neg hk.1]
      exact ih hk.2

theorem mem_of_lookup_isSome (ps : List (String × JSVal)) (k : String)
    (hs : (ps.lookup k).isSome) : k ∈ ps.map Prod.fst := by
  by_contra hmem
  rw [lookup_none_of_not_mem ps k hmem] at hs
  simp at hs

theorem lookup_isSome_of_mem (ps : List (String × JSVal)) (k : String)
    (hk : k ∈ ps.map Prod.fst) : (ps.lookup k).isSome := by
  induction ps with
  | nil => simp at hk
  | cons p rest ih =>
      obtain ⟨k0, v0⟩ := p
      rw [lookup_cons]
      by_cases hkk : k = k0
      · rw [if_pos hkk]; rfl
      · rw [if_neg hkk]
        refine ih ?_
        simp only [List.map, List.mem_cons] at hk
        rcases hk with hk | hk
        · exact absurd hk hkk
        · exact hk

theorem setEntries_lookup (ps : List (String × JSVal)) (k : String)
    (hnd : (ps.map Prod.fst).Nodup) (qs : List (String × JSVal)) :
    (setEntries qs ps).lookup k = optOr (ps.lookup k) (qs.lookup k) := by
  induction ps generalizing qs with
  | nil => simp [setEntries, optOr, List.lookup]
  | cons p rest ih =>
      obtain ⟨k0, v0⟩ := p
      simp only [List.map, List.nodup_cons] at hnd
      rw [setEntries, ih hnd.2, setEntry_lookup, lookup_cons]
      by_cases hk : k = k0
      · subst hk
        rw [lookup_none_of_not_mem rest k hnd.1]
        simp [optOr]
      · simp [hk]

theorem setEntries_keys (ps : List (String × JSVal))
    (hnd : (ps.map Prod.fst).Nodup) (qs : List (String × JSVal))
    (hdisj : ∀ k ∈ ps.map Prod.fst, qs.lookup k = none) :
    (setEntries qs ps).map Prod.fst =
      qs.map Prod.fst ++ ps.map Prod.fst := by
  induction ps generalizing qs with
  | nil => simp [setEntries]
  | cons p rest ih =>
      obtain ⟨k0, v0⟩ := p
      simp only [List.map, List.nodup_cons] at hnd
      rw [setEntries, ih hnd.2]
      · rw [setEntry_keys_of_not_mem qs k0 v0 (hdisj k0 (by simp))]
        simp
      · intro k hk
        rw [setEntry_lookup]
        have hne : k ≠ k0 := fun hc => hnd.1 (hc ▸ hk)
        rw [if_neg hne]
        exact hdisj k (by simp [hk])

theorem setEntries_isSome_mono (ps : List (String × JSVal)) (k : String)
    (qs : List (String × JSVal)) (hs : (qs.lookup k).isSome) :
    ((setEntries qs ps).lookup k).isSome := by
  induction ps generalizing qs with
  | nil => exact hs
  | cons p rest ih =>
      obtain ⟨k0, v0⟩ := p
      exact ih _ (setEntry_isSome_mono qs k0 k v0 hs)

theorem length_assignAll (h : Heap) (t : Nat) (ps : List (String × JSVal)) :
    (assignAll h t ps).length = h.length := by
  induction ps generalizing h with
  | nil => rfl
  | cons p rest ih =>
      obtain ⟨k, v⟩ := p
      rw [assignAll, ih, length_setOwn]

theorem getObj_assignAll_ne (h : Heap) (t a : Nat)
    (ps : List (String × JSVal)) (hne : a ≠ t) :
    getObj (assignAll h t ps) a = getObj h a := by
  induction ps generalizing h with
  | nil => rfl
  | cons p rest ih =>
      obtain ⟨k, v⟩ := p
      rw [assignAll, ih, getObj_setOwn_ne h t a k v hne]

theorem getObj_assignAll_self (h : Heap) (t : Nat)
    (ps : List (String × JSVal)) (ob : JSObj) (hg : getObj h t = some ob) :
    getObj (assignAll h t ps) t =
      some { ob with props := setEntries ob.props ps } := by
  induction ps generalizing h ob with
  | nil => exact hg
  | cons p rest ih =>
      obtain ⟨k, v⟩ := p
      rw [assignAll]
      exact ih (setOwn h t k v) _ (getObj_setOwn_self h t k v ob hg)

/-! ### Prototype-chain congruence: operations that do not touch any
object on a chain leave lookups, chains and enumerations over it intact. -/

theorem mem_chainListF_self (h : Heap) (fuel a : Nat) (hf : 0 < fuel) :
    a ∈ chainListF h fuel a := by
  cases fuel with
  | zero => omega
  | succ f => simp [chainListF]

theorem chainListF_succ_some (h : Heap) (f a p : Nat) (ob : JSObj)
    (hg : getObj h a = some ob) (hp : ob.iproto = some p) :
    chainListF h (f + 1) a = a :: chainListF h f p := by
  rw [chainListF, hg]
  simp only [hp]

theorem chainListF_congr (h h' : Heap) (fuel : Nat) :
    ∀ a, (∀ b ∈ chainListF h fuel a, getObj h' b = getObj h b) →
    chainListF h' fuel a = chainListF h fuel a := by
  induction fuel with
  | zero => intro a _; rfl
  | succ f ih =>
      intro a hcongr
      have ha : getObj h' a = getObj h a :=
        hcongr a (mem_chainListF_self h (f + 1) a (by omega))
      rw [chainListF, chainListF, ha]
      cases hg : getObj h a with
      | none => rfl
      | some ob =>
          cases hp : ob.iproto with
          | none => simp only [hp]
          | some p =>
              have hrec : chainListF h' f p = chainListF h f p := by
                refine ih p (fun b hb => hcongr b ?_)
                rw [chainListF_succ_some h f a p ob hg hp]
                exact List.mem_cons_of_mem a hb
              simp only [hp, hrec]

theorem chainFindF_congr (h h' : Heap) (fuel : Nat) (k : String) :
    ∀ a, (∀ b ∈ chainListF h fuel a, getObj h' b = getObj h b) →
    chainFindF h' fuel a k = chainFindF h fuel a k := by
  induction fuel with
  | zero => intro a _; rfl
  | succ f ih =>
      intro a hcongr
      have ha : getObj h' a = getObj h a :=
        hcongr a (mem_chainListF_self h (f + 1) a (by omega))
      rw [chainFindF, chainFindF, ha]
      cases hg : getObj h a with
      | none => rfl
      | some ob =>
          cases hl : ob.props.lookup k with
          | some v => simp only [hl]
          | none =>
              cases hp : ob.iproto with
              | none => simp only [hl, hp]
              | some p =>
                  have hrec : chainFindF h' f p k = chainFindF h f p k := by
                    refine ih p (fun b hb => hcongr b ?_)
                    rw [chainListF_succ_some h f a p ob hg hp]
                    exact List.mem_cons_of_mem a hb
                  simp only [hl, hp, hrec]

theorem enumPairsF_congr (h h' : Heap) (fuel : Nat) :
    ∀ a seen, (∀ b ∈ chainListF h fuel a, getObj h' b = getObj h b) →
    enumPairsF h' fuel a seen = enumPairsF h fuel a seen := by
  induction fuel with
  | zero => intro a seen _; rfl
  | succ f ih =>
      intro a seen hcongr
      have ha : getObj h' a = getObj h a :=
        hcongr a (mem_chainListF_self h (f + 1) a (by omega))
      rw [enumPairsF, enumPairsF, ha]
      cases hg : getObj h a with
      | none => rfl
      | some ob =>
          cases hp : ob.iproto with
          | none => simp only [hp]
          | some p =>
              have hrec : enumPairsF h' f p
                    (seen ++ (dedupKeys ob.props seen).map Prod.fst) =
                  enumPairsF h f p
                    (seen ++ (dedupKeys ob.props seen).map Prod.fst) := by
                refine ih p _ (fun b hb => hcongr b ?_)
                rw [chainListF_succ_some h f a p ob hg hp]
                exact List.mem_cons_of_mem a hb
              simp only [hp, hrec]

/-! ### Well-formed heaps: chains strictly descend -/

theorem heapWFbAux_lt (l : List JSObj) :
    ∀ i, heapWFbAux l i = true →
    ∀ a ob, l[a]? = some ob → ∀ p, ob.iproto = some p → p < i + a := by
  induction l with
  | nil => intro i _ a ob hg; simp at hg
  | cons x rest ih =>
      intro i hwf a ob hg p hp
      rw [heapWFbAux, Bool.and_eq_true] at hwf
      cases a with
      | zero =>
          simp only [List.getElem?_cons_zero, Option.some.injEq] at hg
          subst hg
          have := hwf.1
          rw [hp] at this
          simpa using this
      | succ a' =>
          simp only [List.getElem?_cons_succ] at hg
          have := ih (i + 1) hwf.2 a' ob hg p hp
          omega

theorem wf_iproto_lt (h : Heap) (hwf : HeapWF h) (a : Nat) (ob : JSObj)
    (hg : getObj h a = some ob) (p : Nat) (hp : ob.iproto = some p) :
    p < a := by
  have := heapWFbAux_lt h 0 hwf a ob hg p hp
  omega

theorem chainListF_le (h : Heap) (hwf : HeapWF h) (fuel : Nat) :
    ∀ a, ∀ b ∈ chainListF h fuel a, b ≤ a := by
  induction fuel with
  | zero => intro a b hb; simp [chainListF] at hb
  | succ f ih =>
      intro a b hb
      rw [chainListF] at hb
      rcases List.mem_cons.mp hb with hba | hbt
      · omega
      · cases hg : getObj h a with
        | none => rw [hg] at hbt; simp at hbt
        | some ob =>
            rw [hg] at hbt
            cases hp : ob.iproto with
            | none => simp [hp] at hbt
            | some p =>
                simp only [hp] at hbt
                have hlt := wf_iproto_lt h hwf a ob hg p hp
                have := ih p b hbt
                omega

theorem chainListF_lt_length (h : Heap) (hwf : HeapWF h) (fuel a : Nat)
    (ha : a < List.length h) :
    ∀ b ∈ chainListF h fuel a, b < List.length h := by
  intro b hb
  have := chainListF_le h hwf fuel a b hb
  omega

theorem heapWFbAux_set (l : List JSObj) :
    ∀ i a ob ps, l[a]? = some ob → heapWFbAux l i = true →
    heapWFbAux (l.set a { ob with props := ps }) i = true := by
  induction l with
  | nil => intro i a ob ps hg; simp at hg
  | cons x rest ih =>
      intro i a ob ps hg hwf
      rw [heapWFbAux, Bool.and_eq_true] at hwf
      cases a with
      | zero =>
          simp only [List.getElem?_cons_zero, Option.some.injEq] at hg
          subst hg
          rw [List.set]
          rw [heapWFbAux, Bool.and_eq_true]
          exact ⟨hwf.1, hwf.2⟩
      | succ a' =>
          simp only [List.getElem?_cons_succ] at hg
          rw [List.set]
          rw [heapWFbAux, Bool.and_eq_true]
          exact ⟨hwf.1, ih (i + 1) a' ob ps hg hwf.2⟩

theorem HeapWF_setOwn (h : Heap) (a : Nat) (k : String) (v : JSVal)
    (hwf : HeapWF h) : HeapWF (setOwn h a k v) := by
  unfold setOwn
  cases hg : h[a]? with
  | none => exact hwf
  | some ob => exact heapWFbAux_set h 0 a ob _ hg hwf

theorem HeapWF_assignAll (h : Heap) (t : Nat) (ps : List (String × JSVal))
    (hwf : HeapWF h) : HeapWF (assignAll h t ps) := by
  induction ps generalizing h with
  | nil => exact hwf
  | cons p rest ih =>
      obtain ⟨k, v⟩ := p
      exact ih (setOwn h t k v) (HeapWF_setOwn h t k v hwf)

theorem HeapWF_extend (h : Heap) (t : Nat) (srcs : List JSVal)
    (hwf : HeapWF h) : HeapWF (extend h t srcs) := by
  induction srcs generalizing h with
  | nil => exact hwf
  | cons s rest ih =>
      exact ih (assignAll h t (enumOf h s)) (HeapWF_assignAll h t _ hwf)

theorem heapWFbAux_append (l : List JSObj) (x : JSObj) :
    ∀ i, heapWFbAux l i = true →
    (∀ p, x.iproto = some p → p < i + l.length) →
    heapWFbAux (l ++ [x]) i = true := by
  induction l with
  | nil =>
      intro i _ hx
      rw [List.nil_append, heapWFbAux, Bool.and_eq_true]
      refine ⟨?_, rfl⟩
      cases hp : x.iproto with
      | none => rfl
      | some p => simpa using hx p hp
  | cons y rest ih =>
      intro i hwf hx
      rw [heapWFbAux, Bool.and_eq_true] at hwf
      rw [List.cons_append, heapWFbAux, Bool.and_eq_true]
      refine ⟨hwf.1, ih (i + 1) hwf.2 (fun p hp => ?_)⟩
      have := hx p hp
      simp only [List.length_cons] at this
      omega

theorem HeapWF_append (h : Heap) (x : JSObj) (hwf : HeapWF h)
    (hx : ∀ p, x.iproto = some p → p < List.length h) :
    HeapWF (h ++ [x]) :=
  heapWFbAux_append h x 0 hwf (by simpa using hx)

/-! ### Deduplication and enumeration facts -/

theorem dedupKeys_lookup (ps : List (String × JSVal)) :
    ∀ seen k, k ∉ seen → (dedupKeys ps seen).lookup k = ps.lookup k := by
  induction ps with
  | nil => intro seen k _; rfl
  | cons p rest ih =>
      obtain ⟨k0, v0⟩ := p
      intro seen k hk
      rw [dedupKeys]
      by_cases h0 : k0 ∈ seen
      · rw [if_pos h0, ih seen k hk, lookup_cons]
        have : k ≠ k0 := fun hc => hk (hc ▸ h0)
        rw [if_neg this]
      · rw [if_neg h0, lookup_cons, lookup_cons]
        by_cases hkk : k = k0
        · rw [if_pos hkk, if_pos hkk]
        · rw [if_neg hkk, if_neg hkk]
          exact ih (k0 :: seen) k (by simp [hkk, hk])

theorem dedupKeys_nodup (ps : List (String × JSVal)) :
    ∀ seen, ((dedupKeys ps seen).map Prod.fst).Nodup ∧
      ∀ k ∈ (dedupKeys ps seen).map Prod.fst, k ∉ seen := by
  induction ps with
  | nil => intro seen; simp [dedupKeys]
  | cons p rest ih =>
      obtain ⟨k0, v0⟩ := p
      intro seen
      rw [dedupKeys]
      by_cases h0 : k0 ∈ seen
      · rw [if_pos h0]; exact ih seen
      · rw [if_neg h0]
        obtain ⟨ihn, ihs⟩ := ih (k0 :: seen)
        refine ⟨?_, ?_⟩
        · simp only [List.map, List.nodup_cons]
          exact ⟨fun hmem => (ihs k0 hmem) (by simp), ihn⟩
        · intro k hk
          simp only [List.map, List.mem_cons] at hk
          rcases hk with hk | hk
          · exact hk ▸ h0
          · exact fun hs => (ihs k hk) (by simp [hs])

theorem dedupKeys_eq_self (ps : List (String × JSVal)) :
    ∀ seen, (ps.map Prod.fst).Nodup →
    (∀ k ∈ ps.map Prod.fst, k ∉ seen) → dedupKeys ps seen = ps := by
  induction ps with
  | nil => intro seen _ _; rfl
  | cons p rest ih =>
      obtain ⟨k0, v0⟩ := p
      intro seen hnd hdisj
      simp only [List.map, List.nodup_cons] at hnd
      rw [dedupKeys, if_neg (hdisj k0 (by simp))]
      rw [ih (k0 :: seen) hnd.2]
      intro k hk
      simp only [List.mem_cons]
      push_neg
      exact ⟨fun hc => hnd.1 (hc ▸ hk), hdisj k (by simp [hk])⟩

theorem enumPairsF_nodup (h : Heap) (fuel : Nat) :
    ∀ a seen, ((enumPairsF h fuel a seen).map Prod.fst).Nodup ∧
      ∀ k ∈ (enumPairsF h fuel a seen).map Prod.fst, k ∉ seen := by
  induction fuel with
  | zero => intro a seen; simp [enumPairsF]
  | succ f ih =>
      intro a seen
      rw [enumPairsF]
      cases hg : getObj h a with
      | none => simp
      | some ob =>
          obtain ⟨hdn, hds⟩ := dedupKeys_nodup ob.props seen
          cases hp : ob.iproto with
          | none => simp only [hp]; exact ⟨hdn, hds⟩
          | some p =>
              simp only [hp]
              obtain ⟨ihn, ihs⟩ :=
                ih p (seen ++ (dedupKeys ob.props seen).map Prod.fst)
              rw [List.map_append, List.nodup_append]
              refine ⟨⟨hdn, ihn, fun k hk1 hk2 => ?_⟩, fun k hk => ?_⟩
              · exact (ihs k hk2) (by simp [hk1])
              · rw [List.mem_append] at hk
                rcases hk with hk | hk
                · exact hds k hk
                · exact fun hs => (ihs k hk) (by simp [hs])

theorem enumOf_nodup (h : Heap) (v : JSVal) :
    ((enumOf h v).map Prod.fst).Nodup := by
  cases v <;> simp [enumOf]
  exact (enumPairsF_nodup h _ _ []).1

theorem enumOf_iproto_none (h : Heap) (a : Nat) (ob : JSObj)
    (hg : getObj h a = some ob) (hp : ob.iproto = none) :
    enumOf h (.ref a) = dedupKeys ob.props [] := by
  rw [enumOf, enumPairsF, hg]
  simp only [hp]

theorem getOwn_eq (h : Heap) (a : Nat) (ob : JSObj)
    (hg : getObj h a = some ob) (k : String) :
    getOwn h a k = ob.props.lookup k := by
  rw [getOwn, hg]

theorem ownKeys_eq (h : Heap) (a : Nat) (ob : JSObj)
    (hg : getObj h a = some ob) :
    ownKeys h a = ob.props.map Prod.fst := by
  rw [ownKeys, hg]

theorem getProp_iproto_none (h : Heap) (a : Nat) (ob : JSObj)
    (hg : getObj h a = some ob) (hp : ob.iproto = none) (k : String) :
    getProp h (.ref a) k = (ob.props.lookup k).getD .undef := by
  rw [getProp, chainFindF, hg]
  cases hl : ob.props.lookup k with
  | some v => simp only [hl]; rfl
  | none => simp only [hl, hp]; rfl

/-! ### `extend`: lengths, locality, and the merge characterisation -/

theorem extend_cons (h : Heap) (t : Nat) (s : JSVal) (rest : List JSVal) :
    extend h t (s :: rest) = extend (assignAll h t (enumOf h s)) t rest := by
  rfl

theorem length_extend (h : Heap) (t : Nat) (srcs : List JSVal) :
    (extend h t srcs).length = h.length := by
  induction srcs generalizing h with
  | nil => rfl
  | cons s rest ih =>
      rw [extend_cons, ih, length_assignAll]

theorem getObj_extend_ne (h : Heap) (t : Nat) (srcs : List JSVal) (a : Nat)
    (hne : a ≠ t) : getObj (extend h t srcs) a = getObj h a := by
  induction srcs generalizing h with
  | nil => rfl
  | cons s rest ih =>
      rw [extend_cons, ih, getObj_assignAll_ne h t a _ hne]

theorem length_blessAt (h : Heap) (p : Nat) :
    (blessAt h p).length = h.length := by
  rw [blessAt, length_extend, length_setOwn]

theorem getObj_blessAt_ne (h : Heap) (p a : Nat) (hne : a ≠ p) :
    getObj (blessAt h p) a = getObj h a := by
  rw [blessAt, getObj_extend_ne _ _ _ _ hne, getObj_setOwn_ne _ _ _ _ _ hne]

theorem lastLookupFrom_nil (h : Heap) (k : String) (acc : Option JSVal) :
    lastLookupFrom h [] k acc = acc := rfl

theorem lastLookupFrom_cons (h : Heap) (s : JSVal) (rest : List JSVal)
    (k : String) (acc : Option JSVal) :
    lastLookupFrom h (s :: rest) k acc =
      lastLookupFrom h rest k (optOr ((enumOf h s).lookup k) acc) := rfl

theorem lastLookupFrom_shift (h : Heap) (srcs : List JSVal) (k : String) :
    ∀ x y, lastLookupFrom h srcs k (optOr x y) =
      optOr (lastLookupFrom h srcs k x) y := by
  induction srcs with
  | nil => intro x y; rfl
  | cons s rest ih =>
      intro x y
      rw [lastLookupFrom_cons, lastLookupFrom_cons, ← optOr_assoc, ih]

theorem lastLookupFrom_congr (h h' : Heap) (srcs : List JSVal) (k : String)
    (he : ∀ s ∈ srcs, enumOf h' s = enumOf h s) :
    ∀ acc, lastLookupFrom h' srcs k acc = lastLookupFrom h srcs k acc := by
  induction srcs with
  | nil => intro acc; rfl
  | cons s rest ih =>
      intro acc
      rw [lastLookupFrom_cons, lastLookupFrom_cons, he s (by simp),
        ih (fun s' hs' => he s' (by simp [hs']))]

theorem enumOf_congr_of_ne_writes (h h' : Heap) (a t : Nat)
    (ht : t ∉ chainListF h (a + 1) a)
    (hobj : ∀ b, b ≠ t → getObj h' b = getObj h b) :
    enumOf h' (.ref a) = enumOf h (.ref a) :=
  enumPairsF_congr h h' (a + 1) a []
    (fun b hb => hobj b (fun he => ht (he ▸ hb)))

theorem chainListF_congr_of_ne_writes (h h' : Heap) (fuel a t : Nat)
    (ht : t ∉ chainListF h fuel a)
    (hobj : ∀ b, b ≠ t → getObj h' b = getObj h b) :
    chainListF h' fuel a = chainListF h fuel a :=
  chainListF_congr h h' fuel a (fun b hb => hobj b (fun he => ht (he ▸ hb)))

theorem getProp_congr_of_ne_writes (h h' : Heap) (a t : Nat)
    (ht : t ∉ chainListF h (a + 1) a)
    (hobj : ∀ b, b ≠ t → getObj h' b = getObj h b) (k : String) :
    getProp h' (.ref a) k = getProp h (.ref a) k := by
  rw [getProp, getProp,
    chainFindF_congr h h' (a + 1) k a
      (fun b hb => hobj b (fun he => ht (he ▸ hb)))]

/-- The merge characterisation of `extend`: when no source's prototype
chain passes through the target, the target ends up owning, under each
name, the value of the last source that enumerates that name (its own
entries and its chain's), keeping its old entry when no source has it. -/
theorem extend_getOwn (h : Heap) (t : Nat) (srcs : List JSVal) (tob : JSObj)
    (hg : getObj h t = some tob)
    (hch : ∀ a, JSVal.ref a ∈ srcs → t ∉ chainListF h (a + 1) a) :
    ∀ k, getOwn (extend h t srcs) t k =
      optOr (lastLookupFrom h srcs k none) (tob.props.lookup k) := by
  induction srcs generalizing h tob with
  | nil =>
      intro k
      rw [lastLookupFrom_nil]
      rw [show extend h t [] = h from rfl, getOwn_eq h t tob hg]
      rfl
  | cons s rest ih =>
      intro k
      rw [extend_cons]
      have h1g : getObj (assignAll h t (enumOf h s)) t =
          some { tob with props := setEntries tob.props (enumOf h s) } :=
        getObj_assignAll_self h t _ tob hg
      have hobj : ∀ b, b ≠ t →
          getObj (assignAll h t (enumOf h s)) b = getObj h b :=
        fun b hb => getObj_assignAll_ne h t b _ hb
      have hch1 : ∀ a, JSVal.ref a ∈ rest →
          t ∉ chainListF (assignAll h t (enumOf h s)) (a + 1) a := by
        intro a ha
        rw [chainListF_congr_of_ne_writes h _ (a + 1) a t
          (hch a (by simp [ha])) hobj]
        exact hch a (by simp [ha])
      have henum : ∀ s' ∈ rest,
          enumOf (assignAll h t (enumOf h s)) s' = enumOf h s' := by
        intro s' hs'
        cases s' with
        | ref a =>
            exact enumOf_congr_of_ne_writes h _ a t
              (hch a (by simp [hs'])) hobj
        | undef => rfl
        | nullv => rfl
        | boolean b => rfl
        | number n => rfl
        | str s0 => rfl
        | fn f => rfl
      rw [ih _ _ h1g hch1 k]
      rw [lastLookupFrom_congr h _ rest k henum]
      rw [setEntries_lookup _ k (enumOf_nodup h s) _]
      rw [← optOr_assoc, lastLookupFrom_cons]
      rw [← lastLookupFrom_shift h rest k none ((enumOf h s).lookup k)]
      rw [optOr_none ((enumOf h s).lookup k)]
      rfl

/-! ### The option resolver: named-mode and positional-mode lemmas -/

theorem oNames_eq :
    oNames = ["sharedProperties", "instanceProperties", "initFunction"] :=
  rfl

theorem factoryNames_eq :
    factoryNames = ["sharedProperties", "defaultProperties", "instanceInit",
      "factoryInit", "ignoreOptions"] :=
  rfl

theorem namedPass_cons (h : Heap) (a0 : JSVal) (n : String)
    (rest : List String) (st : List (String × JSVal) × Bool) :
    namedPass h a0 (n :: rest) st =
      namedPass h a0 rest
        (if truthy a0 && truthy (getProp h a0 n) then
          (setEntry st.1 n (getProp h a0 n), true)
        else st) := by
  rfl

theorem namedPass_snd (h : Heap) (a0 : JSVal) (names : List String) :
    ∀ st, (namedPass h a0 names st).2 =
      (st.2 || names.any fun n => truthy a0 && truthy (getProp h a0 n)) := by
  induction names with
  | nil => intro st; simp [namedPass]
  | cons n rest ih =>
      intro st
      rw [namedPass_cons, ih]
      by_cases hn : (truthy a0 && truthy (getProp h a0 n)) = true
      · simp [hn]
      · simp only [Bool.not_eq_true] at hn
        simp [hn]

theorem namedPass_lookup (h : Heap) (a0 : JSVal) (names : List String) :
    ∀ st n, (namedPass h a0 names st).1.lookup n =
      if n ∈ names ∧ (truthy a0 && truthy (getProp h a0 n)) = true then
        some (getProp h a0 n)
      else st.1.lookup n := by
  induction names with
  | nil => intro st n; simp [namedPass]
  | cons m rest ih =>
      intro st n
      rw [namedPass_cons, ih]
      by_cases hrest : n ∈ rest ∧ (truthy a0 && truthy (getProp h a0 n)) = true
      · rw [if_pos hrest, if_pos ⟨by simp [hrest.1], hrest.2⟩]
      · rw [if_neg hrest]
        by_cases hm : (truthy a0 && truthy (getProp h a0 m)) = true
        · rw [if_pos hm]
          simp only [setEntry_lookup]
          by_cases hnm : n = m
          · subst hnm
            rw [if_pos rfl, if_pos ⟨by simp, hm⟩]
          · rw [if_neg hnm, if_neg (fun hc => hrest ⟨by
              rcases List.mem_cons.mp hc.1 with hc1 | hc1
              · exact absurd hc1 hnm
              · exact hc1, hc.2⟩)]
        · rw [if_neg hm]
          by_cases hnm : n = m
          · subst hnm
            rw [if_neg (fun hc => hm hc.2)]
          · rw [if_neg (fun hc => hrest ⟨by
              rcases List.mem_cons.mp hc.1 with hc1 | hc1
              · exact absurd hc1 hnm
              · exact hc1, hc.2⟩)]

theorem namedPass_nohit (h : Heap) (a0 : JSVal) (names : List String)
    (hmiss : ∀ n ∈ names, (truthy a0 && truthy (getProp h a0 n)) = false) :
    ∀ st, namedPass h a0 names st = st := by
  induction names with
  | nil => intro st; rfl
  | cons n rest ih =>
      intro st
      rw [namedPass_cons, if_neg (by simp [hmiss n (by simp)])]
      exact ih (fun n' hn' => hmiss n' (by simp [hn'])) st

/-- Named-mode resolution: when at least one declared name finds a truthy
entry in the first value, the resolver maps exactly the declared names with
truthy entries (to those entries) and leaves every other name absent. -/
theorem mapOptionsN_named (h : Heap) (names : List String) (a0 : JSVal)
    (args : List JSVal) (ha0 : args.getD 0 .undef = a0)
    (hhit : (names.any fun n => truthy a0 && truthy (getProp h a0 n)) = true) :
    ∀ n, (mapOptionsN h names args).lookup n =
      if n ∈ names ∧ (truthy a0 && truthy (getProp h a0 n)) = true then
        some (getProp h a0 n)
      else none := by
  intro n
  rw [mapOptionsN]
  simp only [ha0]
  rw [if_pos (by rw [namedPass_snd]; simp [hhit])]
  rw [namedPass_lookup]
  rfl

/-- Positional-mode resolution: when no declared name finds a truthy entry
in the first value, the resolver assigns every name its positional
argument. -/
theorem mapOptionsN_nohit (h : Heap) (names : List String)
    (args : List JSVal)
    (hmiss : ∀ n ∈ names,
      (truthy (args.getD 0 .undef) &&
        truthy (getProp h (args.getD 0 .undef) n)) = false) :
    mapOptionsN h names args =
      (List.enum names).foldl
        (fun cfg p => setEntry cfg p.2 (args.getD p.1 .undef)) [] := by
  rw [mapOptionsN]
  rw [namedPass_nohit h (args.getD 0 .undef) names hmiss ([], false)]
  rfl

theorem mapOptionsN_oNames_pos (h : Heap) (sp : Nat) (ipv : JSVal)
    (hmiss : ∀ n ∈ oNames, truthy (getProp h (.ref sp) n) = false) :
    mapOptionsN h oNames [.ref sp, ipv] =
      [("sharedProperties", .ref sp), ("instanceProperties", ipv),
        ("initFunction", .undef)] := by
  rw [mapOptionsN_nohit h oNames [.ref sp, ipv]
    (fun n hn => by
      show (truthy (JSVal.ref sp) && truthy (getProp h (.ref sp) n)) = false
      rw [hmiss n hn]
      rfl)]
  rfl

/-! ### The positional path through the object constructor `o` -/

theorem oBuild_pos (h : Heap) (sp : Nat) (ipv : JSVal)
    (hmiss : ∀ n ∈ oNames, truthy (getProp h (.ref sp) n) = false) :
    oBuild h [.ref sp, ipv] =
      some ⟨oPosHeap h sp ipv, List.length h, sp, .fn 1⟩ := by
  have hstep : oBuild h [.ref sp, ipv] =
      some ⟨oPosHeap h sp ipv, List.length (blessAt h sp), sp, .fn 1⟩ := by
    unfold oBuild
    rw [mapOptionsN_oNames_pos h sp ipv hmiss]
    rfl
  rw [hstep, length_blessAt]

theorem o_pos (env : FunEnv) (h : Heap) (sp : Nat) (ipv : JSVal)
    (hmiss : ∀ n ∈ oNames, truthy (getProp h (.ref sp) n) = false) :
    o env h [.ref sp, ipv] =
      some (oPosHeap h sp ipv, .ref (List.length h)) := by
  unfold o
  rw [oBuild_pos h sp ipv hmiss]
  rfl

theorem getObj_blessAt_raw (h : Heap) (sp : Nat) (spo : JSObj)
    (hsp : getObj h sp = some spo) :
    getObj (blessAt h sp) sp =
      some ⟨setEntries (setEntry spo.props "share" (.fn 0))
        (enumOf (setOwn h sp "share" (.fn 0)) (.ref PLUG)), spo.iproto⟩ := by
  rw [blessAt, extend_cons, show ∀ h' : Heap, extend h' sp [] = h' from
    fun _ => rfl]
  exact getObj_assignAll_self _ _ _ _ (getObj_setOwn_self h sp _ _ spo hsp)

theorem getObj_blessAt_self (h : Heap) (sp : Nat) (spo reg : JSObj)
    (hsp : getObj h sp = some spo) (hplug : getObj h PLUG = some reg)
    (hregp : reg.iproto = none) (hne : sp ≠ PLUG) :
    getObj (blessAt h sp) sp =
      some ⟨setEntries (setEntry spo.props "share" (.fn 0))
        (dedupKeys reg.props []), spo.iproto⟩ := by
  have hplug1 : getObj (setOwn h sp "share" (.fn 0)) PLUG = some reg := by
    rw [getObj_setOwn_ne h sp PLUG _ _ (fun hc => hne hc.symm)]
    exact hplug
  have henum : enumOf (setOwn h sp "share" (.fn 0)) (.ref PLUG) =
      dedupKeys reg.props [] :=
    enumOf_iproto_none _ _ _ hplug1 hregp
  rw [getObj_blessAt_raw h sp spo hsp, henum]

theorem getOwn_blessAt_self (h : Heap) (sp : Nat) (spo reg : JSObj)
    (hsp : getObj h sp = some spo) (hplug : getObj h PLUG = some reg)
    (hregp : reg.iproto = none) (hne : sp ≠ PLUG) (k : String) :
    getOwn (blessAt h sp) sp k =
      optOr ((dedupKeys reg.props []).lookup k)
        (if k = "share" then some (.fn 0) else spo.props.lookup k) := by
  rw [getOwn_eq _ _ _ (getObj_blessAt_self h sp spo reg hsp hplug hregp hne)]
  rw [setEntries_lookup _ k (by
    rw [← enumOf_iproto_none h PLUG reg hplug hregp]
    exact enumOf_nodup h (.ref PLUG))]
  rw [setEntry_lookup]

theorem getObj_oPosMid_old (h : Heap) (sp : Nat) (a : Nat)
    (ha : a < List.length h) (hasp : a ≠ sp) :
    getObj (oPosMid h sp) a = getObj h a := by
  have hlen : a ≠ List.length (blessAt h sp) := by
    rw [length_blessAt]; omega
  rw [oPosMid, getObj_setOwn_ne _ _ _ _ _ hlen,
    getObj_append_lt _ _ _ (by rw [length_blessAt]; omega),
    getObj_blessAt_ne h sp a hasp]

theorem getObj_oPosMid_sp (h : Heap) (sp : Nat)
    (hlt : sp < List.length h) :
    getObj (oPosMid h sp) sp = getObj (blessAt h sp) sp := by
  have hlen : sp ≠ List.length (blessAt h sp) := by
    rw [length_blessAt]; omega
  rw [oPosMid, getObj_setOwn_ne _ _ _ _ _ hlen,
    getObj_append_lt _ _ _ (by rw [length_blessAt]; omega)]

theorem getObj_oPosMid_new (h : Heap) (sp : Nat) :
    getObj (oPosMid h sp) (List.length h) =
      some ⟨[("proto", .ref sp)], some sp⟩ := by
  have hbase : getObj (blessAt h sp ++ [⟨[], some sp⟩])
      (List.length (blessAt h sp)) = some ⟨[], some sp⟩ := by
    unfold getObj
    exact List.getElem?_concat_length _ _
  have := getObj_setOwn_self (blessAt h sp ++ [⟨[], some sp⟩])
    (List.length (blessAt h sp)) "proto" (.ref sp) _ hbase
  rw [oPosMid, ← length_blessAt h sp, this]
  rfl

theorem length_oPosMid (h : Heap) (sp : Nat) :
    (oPosMid h sp).length = List.length h + 1 := by
  rw [oPosMid, length_setOwn]
  simp [length_blessAt]

theorem length_oPosHeap (h : Heap) (sp : Nat) (ipv : JSVal) :
    (oPosHeap h sp ipv).length = List.length h + 1 := by
  rw [oPosHeap, length_assignAll, length_oPosMid]

theorem getObj_oPosHeap_old (h : Heap) (sp : Nat) (ipv : JSVal) (a : Nat)
    (ha : a < List.length h) (hasp : a ≠ sp) :
    getObj (oPosHeap h sp ipv) a = getObj h a := by
  have hlen : a ≠ List.length (blessAt h sp) := by
    rw [length_blessAt]; omega
  rw [oPosHeap, getObj_assignAll_ne _ _ _ _ hlen,
    getObj_oPosMid_old h sp a ha hasp]

theorem getObj_oPosHeap_sp (h : Heap) (sp : Nat) (ipv : JSVal)
    (hlt : sp < List.length h) :
    getObj (oPosHeap h sp ipv) sp = getObj (blessAt h sp) sp := by
  have hlen : sp ≠ List.length (blessAt h sp) := by
    rw [length_blessAt]; omega
  rw [oPosHeap, getObj_assignAll_ne _ _ _ _ hlen,
    getObj_oPosMid_sp h sp hlt]

theorem getObj_oPosHeap_new (h : Heap) (sp : Nat) (ipv : JSVal) :
    getObj (oPosHeap h sp ipv) (List.length h) =
      some ⟨setEntries [("proto", .ref sp)] (enumOf (oPosMid h sp) ipv),
        some sp⟩ := by
  rw [oPosHeap, ← length_blessAt h sp]
  have := getObj_assignAll_self (oPosMid h sp)
    (List.length (blessAt h sp)) (enumOf (oPosMid h sp) ipv) _
    (by rw [length_blessAt]; exact getObj_oPosMid_new h sp)
  rw [this]

/-! ### Single steps of prototype-chain lookup -/

theorem chainFindF_found (h : Heap) (fuel a : Nat) (k : String)
    (ob : JSObj) (v : JSVal) (hf : 0 < fuel) (hg : getObj h a = some ob)
    (hl : ob.props.lookup k = some v) :
    chainFindF h fuel a k = some (a, v) := by
  cases fuel with
  | zero => omega
  | succ f =>
      rw [chainFindF, hg]
      simp only [hl]

theorem chainFindF_step (h : Heap) (fuel a : Nat) (k : String) (ob : JSObj)
    (p : Nat) (hg : getObj h a = some ob) (hl : ob.props.lookup k = none)
    (hp : ob.iproto = some p) :
    chainFindF h (fuel + 1) a k = chainFindF h fuel p k := by
  rw [chainFindF, hg]
  simp only [hl, hp]

theorem chainFindF_dead (h : Heap) (fuel a : Nat) (k : String) (ob : JSObj)
    (hg : getObj h a = some ob) (hl : ob.props.lookup k = none)
    (hp : ob.iproto = none) :
    chainFindF h (fuel + 1) a k = none := by
  rw [chainFindF, hg]
  simp only [hl, hp]

theorem getProp_own_hit (h : Heap) (a : Nat) (k : String) (ob : JSObj)
    (v : JSVal) (hg : getObj h a = some ob)
    (hl : ob.props.lookup k = some v) :
    getProp h (.ref a) k = v := by
  rw [getProp, chainFindF_found h (a + 1) a k ob v (by omega) hg hl]

/-- Lookup through one delegation step: the name misses on the instance,
its prototype owns it. -/
theorem getProp_delegate (h : Heap) (a s : Nat) (k : String)
    (oa os : JSObj) (v : JSVal) (hga : getObj h a = some oa)
    (hla : oa.props.lookup k = none) (hpa : oa.iproto = some s)
    (hgs : getObj h s = some os) (hls : os.props.lookup k = some v)
    (hslt : s < a) :
    getProp h (.ref a) k = v := by
  rw [getProp, chainFindF_step h a a k oa s hga hla hpa,
    chainFindF_found h a s k os v (by omega) hgs hls]

theorem truthy_ref (a : Nat) : truthy (.ref a) = true := rfl

theorem oBuild_initF (h : Heap) (args : List JSVal) (b : BuildOut)
    (hb : oBuild h args = some b) :
    b.initF =
      jsOr (((mapOptionsN h oNames args).lookup "initFunction").getD .undef)
        (.fn 1) := by
  simp only [oBuild] at hb
  split at hb
  · exact absurd hb (by simp)
  · cases hb
    rfl

theorem nodup_setEntries (ps qs : List (String × JSVal))
    (hnd : (qs.map Prod.fst).Nodup) :
    ((setEntries qs ps).map Prod.fst).Nodup := by
  induction ps generalizing qs with
  | nil => exact hnd
  | cons p rest ih =>
      obtain ⟨k, v⟩ := p
      refine ih (setEntry qs k v) ?_
      by_cases hk : (qs.lookup k).isSome
      · rw [setEntry_keys_of_mem qs k v hk]
        exact hnd
      · rw [setEntry_keys_of_not_mem qs k v
          (Option.not_isSome_iff_eq_none.mp hk)]
        rw [List.nodup_append]
        refine ⟨hnd, List.nodup_singleton k, fun x hx hx2 => ?_⟩
        rw [List.mem_singleton] at hx2
        subst hx2
        exact hk (lookup_isSome_of_mem qs x hx)

theorem HeapWF_oPosHeap (h : Heap) (sp : Nat) (ipv : JSVal)
    (hwf : HeapWF h) (hsplt : sp < List.length h) :
    HeapWF (oPosHeap h sp ipv) := by
  have h1 : HeapWF (blessAt h sp) := by
    rw [blessAt]
    exact HeapWF_extend _ _ _ (HeapWF_setOwn _ _ _ _ hwf)
  have h2 : HeapWF (blessAt h sp ++ [⟨[], some sp⟩]) := by
    refine HeapWF_append _ _ h1 (fun p hp => ?_)
    simp only [Option.some.injEq] at hp
    rw [← hp, length_blessAt]
    exact hsplt
  rw [oPosHeap, oPosMid]
  exact HeapWF_assignAll _ _ _ (HeapWF_setOwn _ _ _ _ h2)

/-- The own table of the constructed object, away from the `proto`
back-reference, is exactly the enumeration of the instance properties. -/
theorem getOwn_oPosHeap_new (h : Heap) (sp : Nat) (ipv : JSVal)
    (k : String) (hk : k ≠ "proto") :
    getOwn (oPosHeap h sp ipv) (List.length h) k =
      (enumOf (oPosMid h sp) ipv).lookup k := by
  rw [getOwn_eq _ _ _ (getObj_oPosHeap_new h sp ipv)]
  rw [setEntries_lookup _ k (enumOf_nodup _ _)]
  rw [lookup_cons, if_neg hk]
  exact optOr_none _

/-- Enumeration of a source is unchanged by heap evolution that only
touches `sp` and fresh addresses, provided the source's chain avoids
`sp`. -/
theorem enumOf_preserved (h0 h' : Heap) (sp a : Nat)
    (hpres : ∀ b, b < List.length h0 → b ≠ sp → getObj h' b = getObj h0 b)
    (hwf : HeapWF h0) (halt : a < List.length h0)
    (hch : sp ∉ chainListF h0 (a + 1) a) :
    enumOf h' (.ref a) = enumOf h0 (.ref a) := by
  refine enumPairsF_congr h0 h' (a + 1) a [] (fun b hb => ?_)
  exact hpres b (chainListF_lt_length h0 hwf (a + 1) a halt b hb)
    (fun hc => hch (hc ▸ hb))

theorem enumOf_append_stable (h : Heap) (x : JSObj) (a : Nat)
    (hwf : HeapWF h) (halt : a < List.length h) :
    enumOf (h ++ [x]) (.ref a) = enumOf h (.ref a) := by
  refine enumPairsF_congr h (h ++ [x]) (a + 1) a [] (fun b hb => ?_)
  exact getObj_append_lt h x b
    (chainListF_lt_length h hwf (a + 1) a halt b hb)

theorem enumOf_falsy (h : Heap) (v : JSVal) (hf : truthy v = false) :
    enumOf h v = [] := by
  cases v <;> first
    | rfl
    | exact absurd hf (by simp [truthy])

theorem getObj_concat_new (h : Heap) (x : JSObj) :
    getObj (h ++ [x]) (List.length h) = some x := by
  unfold getObj
  exact List.getElem?_concat_length h x

theorem getObj_extend_two (h : Heap) (t : Nat) (s1 s2 : JSVal)
    (ob : JSObj) (hg : getObj h t = some ob) :
    getObj (extend h t [s1, s2]) t =
      some ⟨setEntries (setEntries ob.props (enumOf h s1))
        (enumOf (assignAll h t (enumOf h s1)) s2), ob.iproto⟩ := by
  rw [extend_cons, extend_cons,
    show ∀ hh : Heap, extend hh t [] = hh from fun _ => rfl]
  exact getObj_assignAll_self _ _ _ _ (getObj_assignAll_self _ _ _ _ hg)

/-- With the default (or defaulted) `instanceInit`, a factory call returns
the construction result unchanged. -/
theorem factoryCall_default (env : FunEnv) (h : Heap) (st : FactoryState)
    (options : JSVal) (h' : Heap) (v : JSVal)
    (hii : st.instanceInit = .fn 1)
    (hfc : fcBuild env h st options = some (h', v)) :
    factoryCall env h st options = some (h', v) := by
  unfold factoryCall
  rw [hfc]
  simp only [hii]
  rfl

/-- Decomposition of the `fcPos` heap: an inner heap `h4` (the per-call
preparation: default-properties resolution, merge of the factory-scoped
instance onto `sp`, instance-property resolution) and the instance-property
value handed to `o`. -/
theorem fcPos_shape (h0 : Heap) (st : FactoryState) (sp : Nat)
    (options : JSVal) (spo : JSObj) (hspo : getObj h0 sp = some spo)
    (hwf : HeapWF h0) (hiolt : st.initObj < List.length h0) :
    ∃ h4 ipv,
      fcPos h0 st sp options = (oPosHeap h4 sp ipv, List.length h4) ∧
      (∀ a, a < List.length h0 → a ≠ sp → getObj h4 a = getObj h0 a) ∧
      List.length h0 ≤ List.length h4 ∧
      getObj h4 sp =
        some ⟨setEntries spo.props (enumOf h0 (.ref st.initObj)),
          spo.iproto⟩ ∧
      HeapWF h4 := by
  have hsplt : sp < List.length h0 := lt_of_getObj_some h0 sp spo hspo
  have hext : ∀ h1 : Heap, getObj h1 sp = some spo →
      enumOf h1 (.ref st.initObj) = enumOf h0 (.ref st.initObj) →
      getObj (extend h1 sp [.ref st.initObj]) sp =
        some ⟨setEntries spo.props (enumOf h0 (.ref st.initObj)),
          spo.iproto⟩ := by
    intro h1 hg he
    rw [extend_cons, show ∀ hh : Heap, extend hh sp [] = hh from
      fun _ => rfl, he]
    exact getObj_assignAll_self h1 sp _ spo hg
  unfold fcPos
  dsimp only [alloc]
  by_cases hc1 : truthy st.defaultProperties = true
  · rw [if_pos hc1]
    dsimp only
    by_cases hc2 : truthy st.ignoreOptions = true
    · rw [if_pos hc2]
      dsimp only
      refine ⟨extend h0 sp [.ref st.initObj], st.defaultProperties, rfl,
        ?_, ?_, hext h0 hspo rfl, HeapWF_extend _ _ _ hwf⟩
      · intro a ha hane
        exact getObj_extend_ne h0 sp _ a hane
      · rw [length_extend]
    · rw [if_neg hc2]
      dsimp only
      have hlen3 : List.length (extend h0 sp [.ref st.initObj]) =
          List.length h0 := length_extend h0 sp _
      refine ⟨_, _, rfl, ?_, ?_, ?_, ?_⟩
      · intro a ha hane
        rw [getObj_extend_ne _ _ _ a (by omega),
          getObj_append_lt _ _ a (by omega),
          getObj_extend_ne h0 sp _ a hane]
      · rw [length_extend]
        simp only [List.length_append, List.length_cons, List.length_nil]
        omega
      · rw [getObj_extend_ne _ _ _ sp (by omega),
          getObj_append_lt _ _ sp (by omega)]
        exact hext h0 hspo rfl
      · refine HeapWF_extend _ _ _ (HeapWF_append _ _
          (HeapWF_extend _ _ _ hwf) (fun p hp => by simp at hp))
  · rw [if_neg hc1]
    dsimp only
    have hg1 : getObj (h0 ++ [(⟨[], none⟩ : JSObj)]) sp = some spo := by
      rw [getObj_append_lt _ _ _ hsplt]
      exact hspo
    have he1 : enumOf (h0 ++ [(⟨[], none⟩ : JSObj)]) (.ref st.initObj) =
        enumOf h0 (.ref st.initObj) :=
      enumOf_append_stable h0 _ st.initObj hwf hiolt
    have hwf1 : HeapWF (h0 ++ [(⟨[], none⟩ : JSObj)]) :=
      HeapWF_append h0 _ hwf (fun p hp => by simp at hp)
    by_cases hc2 : truthy st.ignoreOptions = true
    · rw [if_pos hc2]
      dsimp only
      refine ⟨_, _, rfl, ?_, ?_, hext _ hg1 he1, HeapWF_extend _ _ _ hwf1⟩
      · intro a ha hane
        rw [getObj_extend_ne _ sp _ a hane, getObj_append_lt _ _ a ha]
      · rw [length_extend]
        simp only [List.length_append, List.length_cons, List.length_nil]
        omega
    · rw [if_neg hc2]
      dsimp only
      have hlen3 :
          List.length (extend (h0 ++ [(⟨[], none⟩ : JSObj)]) sp
            [.ref st.initObj]) = List.length h0 + 1 := by
        rw [length_extend]
        simp
      refine ⟨_, _, rfl, ?_, ?_, ?_, ?_⟩
      · intro a ha hane
        rw [getObj_extend_ne _ _ _ a (by omega),
          getObj_append_lt _ _ a (by omega),
          getObj_extend_ne _ sp _ a hane, getObj_append_lt _ _ a ha]
      · rw [length_extend]
        simp only [List.length_append, List.length_cons, List.length_nil]
        omega
      · rw [getObj_extend_ne _ _ _ sp (by omega),
          getObj_append_lt _ _ sp (by omega)]
        exact hext _ hg1 he1
      · refine HeapWF_extend _ _ _ (HeapWF_append _ _
          (HeapWF_extend _ _ _ hwf1) (fun p hp => by simp at hp))

/-- Full per-branch characterisation of one factory invocation's
preparation: in addition to `fcPos_shape`'s facts, the enumeration of the
resolved instance-property value is the `ignoreOptions`-selected merge of
the configured default properties and the call's options. -/
theorem fcPos_full (h0 : Heap) (st : FactoryState) (sp : Nat)
    (options : JSVal) (spo : JSObj) (hspo : getObj h0 sp = some spo)
    (hwf : HeapWF h0) (hiolt : st.initObj < List.length h0)
    (hdp : truthy st.defaultProperties = true →
      ∃ d, st.defaultProperties = .ref d ∧ d < List.length h0 ∧
        sp ∉ chainListF h0 (d + 1) d)
    (hq : ∀ q, options = .ref q →
      q < List.length h0 ∧ sp ∉ chainListF h0 (q + 1) q) :
    ∃ h4 ipv,
      fcPos h0 st sp options = (oPosHeap h4 sp ipv, List.length h4) ∧
      (∀ a, a < List.length h0 → a ≠ sp → getObj h4 a = getObj h0 a) ∧
      List.length h0 ≤ List.length h4 ∧
      HeapWF h4 ∧
      ∀ k, (enumOf (oPosMid h4 sp) ipv).lookup k =
        (if truthy st.ignoreOptions = true
         then (enumOf h0 st.defaultProperties).lookup k
         else optOr ((enumOf h0 options).lookup k)
           ((enumOf h0 st.defaultProperties).lookup k)) := by
  have hsplt : sp < List.length h0 := lt_of_getObj_some h0 sp spo hspo
  have hspneq : ∀ b : Nat, b < List.length h0 → sp ≠ List.length h0 := by
    omega
  -- enumeration of the options value over any heap that preserves h0
  -- below sp
  have hoptEnum : ∀ h' : Heap,
      (∀ b, b < List.length h0 → b ≠ sp → getObj h' b = getObj h0 b) →
      enumOf h' options = enumOf h0 options := by
    intro h' hpres
    cases hov : options with
    | ref q =>
        obtain ⟨hqlt, hqch⟩ := hq q hov
        exact enumOf_preserved h0 h' sp q hpres hwf hqlt hqch
    | undef => rfl
    | nullv => rfl
    | boolean b => rfl
    | number n => rfl
    | str s => rfl
    | fn f => rfl
  unfold fcPos
  dsimp only [alloc]
  by_cases hc1 : truthy st.defaultProperties = true
  · obtain ⟨d, hdeq, hdlt, hdch⟩ := hdp hc1
    rw [if_pos hc1]
    dsimp only
    by_cases hc2 : truthy st.ignoreOptions = true
    · rw [if_pos hc2]
      dsimp only
      have hpres4 : ∀ a, a < List.length h0 → a ≠ sp →
          getObj (extend h0 sp [.ref st.initObj]) a = getObj h0 a :=
        fun a _ hane => getObj_extend_ne h0 sp _ a hane
      have hlen04 : List.length h0 ≤
          List.length (extend h0 sp [.ref st.initObj]) := by
        rw [length_extend]
      refine ⟨_, _, rfl, hpres4, hlen04, HeapWF_extend _ _ _ hwf, ?_⟩
      intro k
      rw [if_pos hc2]
      have hpresMid : ∀ b, b < List.length h0 → b ≠ sp →
          getObj (oPosMid (extend h0 sp [.ref st.initObj]) sp) b =
            getObj h0 b := by
        intro b hb hbn
        rw [getObj_oPosMid_old _ sp b (by omega) hbn]
        exact hpres4 b hb hbn
      rw [hdeq,
        enumOf_preserved h0 _ sp d hpresMid hwf hdlt hdch]
    · rw [if_neg hc2]
      dsimp only
      have hlen3 : List.length (extend h0 sp [.ref st.initObj]) =
          List.length h0 := length_extend h0 sp _
      have hpres3 : ∀ b, b < List.length h0 → b ≠ sp →
          getObj (extend h0 sp [.ref st.initObj] ++ [(⟨[], none⟩ : JSObj)])
            b = getObj h0 b := by
        intro b hb hbn
        rw [getObj_append_lt _ _ b (by omega)]
        exact getObj_extend_ne h0 sp _ b hbn
      have hpres4 : ∀ a, a < List.length h0 → a ≠ sp →
          getObj (extend (extend h0 sp [.ref st.initObj] ++
            [(⟨[], none⟩ : JSObj)])
            (List.length (extend h0 sp [.ref st.initObj]))
            [st.defaultProperties, options]) a = getObj h0 a := by
        intro a ha hane
        rw [getObj_extend_ne _ _ _ a (by omega)]
        exact hpres3 a ha hane
      have hlen04 : List.length h0 ≤
          List.length (extend (extend h0 sp [.ref st.initObj] ++
            [(⟨[], none⟩ : JSObj)])
            (List.length (extend h0 sp [.ref st.initObj]))
            [st.defaultProperties, options]) := by
        rw [length_extend]
        simp only [List.length_append, List.length_cons, List.length_nil]
        omega
      refine ⟨_, _, rfl, hpres4, hlen04,
        HeapWF_extend _ _ _ (HeapWF_append _ _ (HeapWF_extend _ _ _ hwf)
          (fun p hp => by simp at hp)), ?_⟩
      intro k
      rw [if_neg hc2]
      have hinstg : getObj (extend h0 sp [.ref st.initObj] ++
          [(⟨[], none⟩ : JSObj)])
          (List.length (extend h0 sp [.ref st.initObj])) =
          some ⟨[], none⟩ := getObj_concat_new _ _
      have h4inst := getObj_extend_two _ _ st.defaultProperties options
        _ hinstg
      have he1 : enumOf (extend h0 sp [.ref st.initObj] ++
          [(⟨[], none⟩ : JSObj)]) st.defaultProperties =
          enumOf h0 st.defaultProperties := by
        rw [hdeq]
        exact enumOf_preserved h0 _ sp d hpres3 hwf hdlt hdch
      have hpresA : ∀ b, b < List.length h0 → b ≠ sp →
          getObj (assignAll (extend h0 sp [.ref st.initObj] ++
            [(⟨[], none⟩ : JSObj)])
            (List.length (extend h0 sp [.ref st.initObj]))
            (enumOf (extend h0 sp [.ref st.initObj] ++
              [(⟨[], none⟩ : JSObj)]) st.defaultProperties)) b =
            getObj h0 b := by
        intro b hb hbn
        rw [getObj_assignAll_ne _ _ b _ (by omega)]
        exact hpres3 b hb hbn
      have he2 := hoptEnum _ hpresA
      have hio4 : getObj (oPosMid (extend (extend h0 sp [.ref st.initObj]
          ++ [(⟨[], none⟩ : JSObj)])
          (List.length (extend h0 sp [.ref st.initObj]))
          [st.defaultProperties, options]) sp)
          (List.length (extend h0 sp [.ref st.initObj])) =
          some ⟨setEntries (setEntries []
            (enumOf (extend h0 sp [.ref st.initObj] ++
              [(⟨[], none⟩ : JSObj)]) st.defaultProperties))
            (enumOf (assignAll (extend h0 sp [.ref st.initObj] ++
              [(⟨[], none⟩ : JSObj)])
              (List.length (extend h0 sp [.ref st.initObj]))
              (enumOf (extend h0 sp [.ref st.initObj] ++
                [(⟨[], none⟩ : JSObj)]) st.defaultProperties)) options),
            none⟩ := by
        rw [getObj_oPosMid_old _ sp _ (by
          simp only [length_extend, List.length_append, List.length_cons,
            List.length_nil]
          omega) (by omega)]
        exact h4inst
      rw [enumOf_iproto_none _ _ _ hio4 rfl,
        dedupKeys_lookup _ [] k (by simp)]
      dsimp only
      rw [setEntries_lookup _ k (enumOf_nodup _ options),
        setEntries_lookup _ k (enumOf_nodup _ st.defaultProperties),
        he2, he1]
      rw [show (List.lookup k ([] : List (String × JSVal))) = none from rfl,
        optOr_none]
  · rw [if_neg hc1]
    dsimp only
    have hfalsy : truthy st.defaultProperties = false :=
      Bool.not_eq_true _ ▸ eq_false_of_ne_true hc1
    have hg1 : getObj (h0 ++ [(⟨[], none⟩ : JSObj)]) sp = some spo := by
      rw [getObj_append_lt _ _ _ hsplt]
      exact hspo
    have hwf1 : HeapWF (h0 ++ [(⟨[], none⟩ : JSObj)]) :=
      HeapWF_append h0 _ hwf (fun p hp => by simp at hp)
    have hdpenum : (enumOf h0 st.defaultProperties) = [] :=
      enumOf_falsy h0 _ hfalsy
    by_cases hc2 : truthy st.ignoreOptions = true
    · rw [if_pos hc2]
      dsimp only
      have hpres4 : ∀ a, a < List.length h0 → a ≠ sp →
          getObj (extend (h0 ++ [(⟨[], none⟩ : JSObj)]) sp
            [.ref st.initObj]) a = getObj h0 a := by
        intro a ha hane
        rw [getObj_extend_ne _ sp _ a hane]
        exact getObj_append_lt _ _ a ha
      have hlen04 : List.length h0 ≤
          List.length (extend (h0 ++ [(⟨[], none⟩ : JSObj)]) sp
            [.ref st.initObj]) := by
        rw [length_extend]
        simp only [List.length_append, List.length_cons, List.length_nil]
        omega
      refine ⟨_, _, rfl, hpres4, hlen04, HeapWF_extend _ _ _ hwf1, ?_⟩
      intro k
      rw [if_pos hc2, hdpenum]
      have hfresh : getObj (oPosMid (extend (h0 ++
          [(⟨[], none⟩ : JSObj)]) sp [.ref st.initObj]) sp)
          (List.length h0) = some ⟨[], none⟩ := by
        rw [getObj_oPosMid_old _ sp _ (by
          simp only [length_extend, List.length_append, List.length_cons,
            List.length_nil]
          omega) (by omega)]
        rw [getObj_extend_ne _ sp _ _ (by omega)]
        exact getObj_concat_new h0 _
      rw [enumOf_iproto_none _ _ _ hfresh rfl]
      rfl
    · rw [if_neg hc2]
      dsimp only
      have hlen3 : List.length (extend (h0 ++ [(⟨[], none⟩ : JSObj)]) sp
          [.ref st.initObj]) = List.length h0 + 1 := by
        rw [length_extend]
        simp
      have hpres3 : ∀ b, b < List.length h0 → b ≠ sp →
          getObj (extend (h0 ++ [(⟨[], none⟩ : JSObj)]) sp
            [.ref st.initObj] ++ [(⟨[], none⟩ : JSObj)]) b =
            getObj h0 b := by
        intro b hb hbn
        rw [getObj_append_lt _ _ b (by omega),
          getObj_extend_ne _ sp _ b hbn]
        exact getObj_append_lt _ _ b hb
      have hpres4 : ∀ a, a < List.length h0 → a ≠ sp →
          getObj (extend (extend (h0 ++ [(⟨[], none⟩ : JSObj)]) sp
            [.ref st.initObj] ++ [(⟨[], none⟩ : JSObj)])
            (List.length (extend (h0 ++ [(⟨[], none⟩ : JSObj)]) sp
              [.ref st.initObj]))
            [.ref (List.length h0), options]) a = getObj h0 a := by
        intro a ha hane
        rw [getObj_extend_ne _ _ _ a (by omega)]
        exact hpres3 a ha hane
      have hlen04 : List.length h0 ≤
          List.length (extend (extend (h0 ++ [(⟨[], none⟩ : JSObj)]) sp
            [.ref st.initObj] ++ [(⟨[], none⟩ : JSObj)])
            (List.length (extend (h0 ++ [(⟨[], none⟩ : JSObj)]) sp
              [.ref st.initObj]))
            [.ref (List.length h0), options]) := by
        rw [length_extend]
        simp only [List.length_append, List.length_cons, List.length_nil]
        omega
      refine ⟨_, _, rfl, hpres4, hlen04,
        HeapWF_extend _ _ _ (HeapWF_append _ _ (HeapWF_extend _ _ _ hwf1)
          (fun p hp => by simp at hp)), ?_⟩
      intro k
      rw [if_neg hc2, hdpenum]
      have hinstg : getObj (extend (h0 ++ [(⟨[], none⟩ : JSObj)]) sp
          [.ref st.initObj] ++ [(⟨[], none⟩ : JSObj)])
          (List.length (extend (h0 ++ [(⟨[], none⟩ : JSObj)]) sp
            [.ref st.initObj])) = some ⟨[], none⟩ := getObj_concat_new _ _
      have h4inst := getObj_extend_two _ _ (JSVal.ref (List.length h0))
        options _ hinstg
      have he1 : enumOf (extend (h0 ++ [(⟨[], none⟩ : JSObj)]) sp
          [.ref st.initObj] ++ [(⟨[], none⟩ : JSObj)])
          (.ref (List.length h0)) = [] := by
        have : getObj (extend (h0 ++ [(⟨[], none⟩ : JSObj)]) sp
            [.ref st.initObj] ++ [(⟨[], none⟩ : JSObj)])
            (List.length h0) = some ⟨[], none⟩ := by
          rw [getObj_append_lt _ _ _ (by omega),
            getObj_extend_ne _ sp _ _ (by omega)]
          exact getObj_concat_new h0 _
        rw [enumOf_iproto_none _ _ _ this rfl]
        rfl
      have hpresA : ∀ b, b < List.length h0 → b ≠ sp →
          getObj (assignAll (extend (h0 ++ [(⟨[], none⟩ : JSObj)]) sp
            [.ref st.initObj] ++ [(⟨[], none⟩ : JSObj)])
            (List.length (extend (h0 ++ [(⟨[], none⟩ : JSObj)]) sp
              [.ref st.initObj]))
            (enumOf (extend (h0 ++ [(⟨[], none⟩ : JSObj)]) sp
              [.ref st.initObj] ++ [(⟨[], none⟩ : JSObj)])
              (.ref (List.length h0)))) b = getObj h0 b := by
        intro b hb hbn
        rw [getObj_assignAll_ne _ _ b _ (by omega)]
        exact hpres3 b hb hbn
      have he2 := hoptEnum _ hpresA
      have hio4 : getObj (oPosMid (extend (extend (h0 ++
          [(⟨[], none⟩ : JSObj)]) sp [.ref st.initObj] ++
          [(⟨[], none⟩ : JSObj)])
          (List.length (extend (h0 ++ [(⟨[], none⟩ : JSObj)]) sp
            [.ref st.initObj]))
          [.ref (List.length h0), options]) sp)
          (List.length (extend (h0 ++ [(⟨[], none⟩ : JSObj)]) sp
            [.ref st.initObj])) =
          some ⟨setEntries (setEntries []
            (enumOf (extend (h0 ++ [(⟨[], none⟩ : JSObj)]) sp
              [.ref st.initObj] ++ [(⟨[], none⟩ : JSObj)])
              (.ref (List.length h0))))
            (enumOf (assignAll (extend (h0 ++ [(⟨[], none⟩ : JSObj)]) sp
              [.ref st.initObj] ++ [(⟨[], none⟩ : JSObj)])
              (List.length (extend (h0 ++ [(⟨[], none⟩ : JSObj)]) sp
                [.ref st.initObj]))
              (enumOf (extend (h0 ++ [(⟨[], none⟩ : JSObj)]) sp
                [.ref st.initObj] ++ [(⟨[], none⟩ : JSObj)])
                (.ref (List.length h0)))) options), none⟩ := by
        rw [getObj_oPosMid_old _ sp _ (by
          simp only [length_extend, List.length_append, List.length_cons,
            List.length_nil]
          omega) (by omega)]
        exact h4inst
      rw [enumOf_iproto_none _ _ _ hio4 rfl,
        dedupKeys_lookup _ [] k (by simp)]
      dsimp only
      rw [setEntries_lookup _ k (enumOf_nodup _ options),
        setEntries_lookup _ k (enumOf_nodup _ _),
        he2, he1]
      rfl

/-- The path one factory invocation takes when the configured
`sharedProperties` is an object reference `sp`: the inner `o` call resolves
positionally (its first argument `sp` has no truthy entry under the
declared names) with the default initializer, landing exactly on
`fcPos`. -/
theorem fcBuild_pos (env : FunEnv) (h0 : Heap) (st : FactoryState)
    (options : JSVal) (sp : Nat) (spo : JSObj)
    (hsp : st.sharedProperties = .ref sp)
    (hspo : getObj h0 sp = some spo) (hspp : spo.iproto = none)
    (hwf : HeapWF h0)
    (hiolt : st.initObj < List.length h0)
    (hmissS : ∀ n ∈ oNames, truthy ((spo.props.lookup n).getD .undef) = false)
    (hmissI : ∀ n ∈ oNames, (enumOf h0 (.ref st.initObj)).lookup n = none) :
    fcBuild env h0 st options =
      some ((fcPos h0 st sp options).1, .ref (fcPos h0 st sp options).2) := by
  have hsplt : sp < List.length h0 := lt_of_getObj_some h0 sp spo hspo
  have henum0 : ∀ x : JSObj,
      enumOf (h0 ++ [x]) (.ref st.initObj) = enumOf h0 (.ref st.initObj) := by
    intro x
    refine enumPairsF_congr h0 (h0 ++ [x]) (st.initObj + 1) st.initObj []
      (fun b hb => ?_)
    exact getObj_append_lt h0 x b
      (chainListF_lt_length h0 hwf (st.initObj + 1) st.initObj hiolt b hb)
  have hextend_sp : ∀ h1 : Heap, getObj h1 sp = some spo →
      enumOf h1 (.ref st.initObj) = enumOf h0 (.ref st.initObj) →
      getObj (extend h1 sp [.ref st.initObj]) sp =
        some ⟨setEntries spo.props (enumOf h0 (.ref st.initObj)), none⟩ := by
    intro h1 hg he
    rw [extend_cons, show ∀ hh : Heap, extend hh sp [] = hh from
      fun _ => rfl, he]
    have := getObj_assignAll_self h1 sp (enumOf h0 (.ref st.initObj)) spo hg
    rw [this, hspp]
  have hkey : ∀ h4 : Heap, getObj h4 sp =
      some ⟨setEntries spo.props (enumOf h0 (.ref st.initObj)), none⟩ →
      ∀ n ∈ oNames, truthy (getProp h4 (.ref sp) n) = false := by
    intro h4 hg4 n hn
    rw [getProp_iproto_none h4 sp _ hg4 rfl n]
    rw [setEntries_lookup _ n (enumOf_nodup h0 (.ref st.initObj)),
      hmissI n hn]
    exact hmissS n hn
  unfold fcBuild fcPos
  rw [hsp]
  dsimp only [truthy_ref, alloc]
  rw [if_pos (rfl : (true : Bool) = true)]
  dsimp only
  by_cases hc1 : truthy st.defaultProperties = true
  · rw [if_pos hc1]
    dsimp only
    by_cases hc2 : truthy st.ignoreOptions = true
    · rw [if_pos hc2]
      dsimp only
      rw [o_pos env (extend h0 sp [.ref st.initObj]) sp st.defaultProperties
        (hkey _ (hextend_sp h0 hspo rfl))]
    · rw [if_neg hc2]
      dsimp only
      have hlen3 : sp < List.length (extend h0 sp [.ref st.initObj]) := by
        rw [length_extend]
        omega
      have hg4 : getObj (extend (extend h0 sp [.ref st.initObj] ++
          [⟨[], none⟩]) (List.length (extend h0 sp [.ref st.initObj]))
            [st.defaultProperties, options]) sp =
          some ⟨setEntries spo.props (enumOf h0 (.ref st.initObj)), none⟩ := by
        rw [getObj_extend_ne _ _ _ _ (by omega),
          getObj_append_lt _ _ _ hlen3]
        exact hextend_sp h0 hspo rfl
      rw [o_pos env _ sp _ (hkey _ hg4)]
  · rw [if_neg hc1]
    dsimp only
    have hg1 : getObj (h0 ++ [⟨[], none⟩]) sp = some spo := by
      rw [getObj_append_lt _ _ _ hsplt]
      exact hspo
    by_cases hc2 : truthy st.ignoreOptions = true
    · rw [if_pos hc2]
      dsimp only
      rw [o_pos env (extend (h0 ++ [(⟨[], none⟩ : JSObj)]) sp
        [.ref st.initObj]) sp (.ref (List.length h0))
        (hkey _ (hextend_sp (h0 ++ [(⟨[], none⟩ : JSObj)]) hg1 (henum0 _)))]
    · rw [if_neg hc2]
      dsimp only
      have hlen3 : sp <
          List.length (extend (h0 ++ [⟨[], none⟩]) sp [.ref st.initObj]) := by
        rw [length_extend]
        simp only [List.length_append, List.length_cons, List.length_nil]
        omega
      have hg4 : getObj (extend (extend (h0 ++ [⟨[], none⟩]) sp
          [.ref st.initObj] ++ [⟨[], none⟩])
          (List.length (extend (h0 ++ [⟨[], none⟩]) sp [.ref st.initObj]))
          [.ref (List.length h0), options]) sp =
          some ⟨setEntries spo.props (enumOf h0 (.ref st.initObj)), none⟩ := by
        rw [getObj_extend_ne _ _ _ _ (by omega),
          getObj_append_lt _ _ _ hlen3]
        exact hextend_sp (h0 ++ [⟨[], none⟩]) hg1 (henum0 _)
      rw [o_pos env _ sp _ (hkey _ hg4)]

/-! ## The claims -/

/-- C1: whenever at least one declared name has a truthy entry in the first
call value, the resolver works entirely in named-mode: each declared name
with a truthy entry maps to that entry, every declared name without one is
absent from the result, and nothing outside the declared names appears —
the positional values are never consulted. -/
theorem mapOptions_named_mode (h : Heap) (names : List String) (a0 : Nat)
    (rest : List JSVal)
    (hhit : ∃ n, n ∈ names ∧ truthy (getProp h (.ref a0) n) = true) :
    (∀ n ∈ names, truthy (getProp h (.ref a0) n) = true →
      (mapOptionsN h names (.ref a0 :: rest)).lookup n =
        some (getProp h (.ref a0) n)) ∧
    (∀ n ∈ names, truthy (getProp h (.ref a0) n) = false →
      (mapOptionsN h names (.ref a0 :: rest)).lookup n = none) ∧
    (∀ n, n ∉ names →
      (mapOptionsN h names (.ref a0 :: rest)).lookup n = none) := by
  obtain ⟨n0, hn0, ht0⟩ := hhit
  have hany : (names.any
      fun n => truthy (.ref a0) && truthy (getProp h (.ref a0) n)) = true :=
    List.any_eq_true.mpr ⟨n0, hn0, by rw [truthy_ref, ht0]; rfl⟩
  have hm := mapOptionsN_named h names (.ref a0) (.ref a0 :: rest) rfl hany
  refine ⟨?_, ?_, ?_⟩
  · intro n hn ht
    rw [hm n, if_pos ⟨hn, by rw [truthy_ref, ht]; rfl⟩]
  · intro n hn ht
    rw [hm n, if_neg (fun hc => by
      have h2 := hc.2
      rw [truthy_ref, ht] at h2
      simp at h2)]
  · intro n hn
    rw [hm n, if_neg (fun hc => hn hc.1)]

/-- C1 witness: `resolveOptions('a, b, c', {a:5})` resolves to `{a:5}` with
`b` and `c` absent. -/
theorem mapOptions_named_mode_witness :
    (mapOptionsN [⟨[], none⟩, ⟨[("a", .number 5)], none⟩]
      (splitNames "a, b, c") [.ref 1]).lookup "a" = some (.number 5) ∧
    (mapOptionsN [⟨[], none⟩, ⟨[("a", .number 5)], none⟩]
      (splitNames "a, b, c") [.ref 1]).lookup "b" = none ∧
    (mapOptionsN [⟨[], none⟩, ⟨[("a", .number 5)], none⟩]
      (splitNames "a, b, c") [.ref 1]).lookup "c" = none := by
  have hm := mapOptions_named_mode [⟨[], none⟩, ⟨[("a", .number 5)], none⟩]
    (splitNames "a, b, c") 1 [] ⟨"a", by decide, by decide⟩
  refine ⟨?_, ?_, ?_⟩
  · rw [hm.1 "a" (by decide) (by decide)]
    decide
  · exact hm.2.1 "b" (by decide) (by decide)
  · exact hm.2.1 "c" (by decide) (by decide)

/-- C9: `extend(target, ...sources)` copies onto the target, in source
order, every enumerable entry of each source — own entries and entries
reachable through the source's delegation chain — later sources overriding
earlier ones under the same name, and returns the target itself. -/
theorem extend_merges_chain (h : Heap) (t : Nat) (srcs : List JSVal)
    (tob : JSObj) (hg : getObj h t = some tob)
    (hch : ∀ a, JSVal.ref a ∈ srcs → t ∉ chainListF h (a + 1) a) :
    (extendRet h t srcs).2 = .ref t ∧
    ∀ k, getOwn (extend h t srcs) t k =
      optOr (lastLookupFrom h srcs k none) (tob.props.lookup k) :=
  ⟨rfl, fun k => extend_getOwn h t srcs tob hg hch k⟩

/-- C9 witness: the target gains the source's own entry and the entry
inherited through the source's delegation chain, keeps its other entries,
and is itself the returned value. -/
theorem extend_merges_chain_witness :
    (extendRet hC9 3 [.ref 2]).2 = .ref 3 ∧
    getOwn (extend hC9 3 [.ref 2]) 3 "inh" = some (.number 7) ∧
    getOwn (extend hC9 3 [.ref 2]) 3 "own" = some (.number 1) ∧
    getOwn (extend hC9 3 [.ref 2]) 3 "old" = some (.number 0) := by
  have hm := extend_merges_chain hC9 3 [.ref 2] ⟨[("old", .number 0)], none⟩
    (by decide)
    (fun a ha => by
      simp only [List.mem_singleton, JSVal.ref.injEq] at ha
      subst ha
      decide)
  refine ⟨hm.1, ?_, ?_, ?_⟩
  · rw [hm.2 "inh"]; decide
  · rw [hm.2 "own"]; decide
  · rw [hm.2 "old"]; decide

/-- C7: the object constructor returns exactly what the initializer
returns when invoked with the fresh Instance as receiver — even a value
different from the receiver — and, when no initializer was resolved, the
default initializer makes it return the Instance itself. -/
theorem o_returns_init_result (env : FunEnv) (h : Heap) (args : List JSVal)
    (b : BuildOut) (hb : oBuild h args = some b) :
    (∀ k, b.initF = .fn (k + 2) →
      o env h args = env k b.heap (.ref b.objAddr) []) ∧
    (b.initF = .fn 1 → o env h args = some (b.heap, .ref b.objAddr)) ∧
    (truthy (((mapOptionsN h oNames args).lookup "initFunction").getD .undef)
        = false → b.initF = .fn 1) := by
  refine ⟨?_, ?_, ?_⟩
  · intro k hk
    unfold o
    rw [hb]
    simp only [hk]
    rfl
  · intro hk
    unfold o
    rw [hb]
    simp only [hk]
    rfl
  · intro ht
    rw [oBuild_initF h args b hb, jsOr, if_neg (by simp [ht])]

/-- C7 witness: a user initializer returning the number 42 makes `o` return
42 — not the constructed Instance (address 2). -/
theorem o_returns_init_result_witness :
    oBuild hInit [.undef, .undef, .fn 2] =
      some ⟨[⟨[], none⟩, ⟨[("share", .fn 0)], none⟩,
        ⟨[("proto", .ref 1)], some 1⟩], 2, 1, .fn 2⟩ ∧
    o env1 hInit [.undef, .undef, .fn 2] =
      some ([⟨[], none⟩, ⟨[("share", .fn 0)], none⟩,
        ⟨[("proto", .ref 1)], some 1⟩], .number 42) := by
  have hb : oBuild hInit [.undef, .undef, .fn 2] =
      some ⟨[⟨[], none⟩, ⟨[("share", .fn 0)], none⟩,
        ⟨[("proto", .ref 1)], some 1⟩], 2, 1, .fn 2⟩ := by decide
  refine ⟨hb, ?_⟩
  rw [(o_returns_init_result env1 hInit [.undef, .undef, .fn 2] _ hb).1 0 rfl]
  rfl

/-- C6: plugins registered strictly after a CapabilitySet is blessed never
reach it (as long as it is not blessed again); plugins registered before
blessing land on it, overriding same-named own entries. -/
theorem plugin_registration_order (h : Heap) (S P : Nat) (newP : JSVal)
    (hSne : S ≠ PLUG) :
    getObj (addPlugins (blessAt h S) newP) S = getObj (blessAt h S) S ∧
    (∀ reg po, getObj h PLUG = some reg → reg.iproto = none →
      getObj h P = some po → po.iproto = none → P ≠ PLUG →
      S < List.length h →
      ∀ k v, po.props.lookup k = some v →
        getOwn (blessAt (addPlugins h (.ref P)) S) S k = some v) := by
  constructor
  · rw [addPlugins, getObj_extend_ne _ _ _ _ hSne]
  · intro reg po hreg hregp hpo hpop hPne hSlt k v hkv
    have hreg1 : getObj (addPlugins h (.ref P)) PLUG =
        some ⟨setEntries reg.props (enumOf h (.ref P)), reg.iproto⟩ := by
      rw [addPlugins, extend_cons,
        show ∀ h' : Heap, extend h' PLUG [] = h' from fun _ => rfl]
      exact getObj_assignAll_self h PLUG _ reg hreg
    rw [enumOf_iproto_none h P po hpo hpop, hregp] at hreg1
    obtain ⟨so, hso⟩ : ∃ so, getObj h S = some so :=
      ⟨_, by unfold getObj; exact List.getElem?_eq_getElem hSlt⟩
    have hso1 : getObj (addPlugins h (.ref P)) S = some so := by
      rw [addPlugins, getObj_extend_ne _ _ _ _ hSne]
      exact hso
    rw [getOwn_blessAt_self (addPlugins h (.ref P)) S so _ hso1 hreg1 rfl
      hSne k]
    rw [dedupKeys_lookup _ [] k (by simp),
      setEntries_lookup _ k (dedupKeys_nodup po.props []).1,
      dedupKeys_lookup _ [] k (by simp), hkv]
    rfl

/-- C6 witness: a plugin `{plug: 3}` registered after blessing `S` leaves
`S`'s object untouched; registered before blessing, `S` owns `plug = 3`
afterwards. -/
theorem plugin_registration_order_witness :
    getObj (addPlugins (blessAt
      [⟨[], none⟩, ⟨[("x", .number 1)], none⟩,
        ⟨[("plug", .number 3)], none⟩] 1) (.ref 2)) 1 =
      getObj (blessAt [⟨[], none⟩, ⟨[("x", .number 1)], none⟩,
        ⟨[("plug", .number 3)], none⟩] 1) 1 ∧
    getOwn (blessAt (addPlugins [⟨[], none⟩, ⟨[("x", .number 1)], none⟩,
      ⟨[("plug", .number 3)], none⟩] (.ref 2)) 1) 1 "plug" =
      some (.number 3) := by
  have hm := plugin_registration_order
    [⟨[], none⟩, ⟨[("x", .number 1)], none⟩,
      ⟨[("plug", .number 3)], none⟩] 1 2 (.ref 2) (by decide)
  exact ⟨hm.1, hm.2 ⟨[], none⟩ ⟨[("plug", .number 3)], none⟩ (by decide) rfl
    (by decide) rfl (by decide) (by decide) "plug" (.number 3) (by decide)⟩

/-- C8: a factory invocation returns exactly what `instanceInit` returns,
invoking it with the freshly constructed object as receiver and the
original `options` value as its argument; a non-callable `instanceInit`
makes the call return the constructed object unchanged. -/
theorem factory_instanceInit_result (env : FunEnv) (h : Heap)
    (st : FactoryState) (options : JSVal) (h' : Heap) (objv : JSVal)
    (hfc : fcBuild env h st options = some (h', objv)) :
    (∀ k, st.instanceInit = .fn (k + 2) →
      factoryCall env h st options = env k h' objv [options]) ∧
    (isFunction st.instanceInit = false →
      factoryCall env h st options = some (h', objv)) := by
  constructor
  · intro k hk
    unfold factoryCall
    rw [hfc]
    simp only [hk]
    rfl
  · intro hni
    unfold factoryCall
    rw [hfc]
    simp only [hni]
    rfl

/-- C8 witness: a factory whose `instanceInit` returns the string
"substituted" makes the factory call return that string instead of the
constructed object (address 6). -/
theorem factory_instanceInit_result_witness :
    fcBuild env2 h8 st8 .undef = some (h8r, .ref 6) ∧
    factoryCall env2 h8 st8 .undef = some (h8r, .str "substituted") := by
  have hfc : fcBuild env2 h8 st8 .undef = some (h8r, .ref 6) := by decide
  refine ⟨hfc, ?_⟩
  rw [(factory_instanceInit_result env2 h8 st8 .undef h8r (.ref 6) hfc).1 0
    rfl]
  rfl

/-- C4 counterexample: with shared `{sharedProp: 1}` and instance
`{instanceProp: 2}` (disjoint keys), the constructed object's own keys are
`["proto", "instanceProp"]`, not the instance keys `["instanceProp"]`: the
constructor always installs the own `proto` back-reference. -/
theorem construct_ownKeys_cex :
    o env0 hC4 [.ref 1, .ref 2] = some (hC4r, .ref 3) ∧
    ownKeys hC4r 3 = ["proto", "instanceProp"] ∧
    ¬ ownKeys hC4r 3 = ["instanceProp"] := by decide

/-- C5 counterexample.  Part 1: sharing under a name that is already an own
key of an Instance (`instanceProp`) is not observed through that Instance —
its own entry (2) shadows the installed value (9).  Part 2: invoking
`share` with the CapabilitySet S itself as receiver routes the write
through S's own `proto` entry (here pointing at an unrelated object 1), so
the installed capability is not visible on the Instance delegating to S. -/
theorem share_visibility_cex :
    (o env0 hC4 [.ref 1, .ref 2] = some (hC4r, .ref 3) ∧
      sharePrim hC4r (.ref 3) (.str "instanceProp") (.number 9) =
        some (setOwn hC4r 1 "instanceProp" (.number 9)) ∧
      getProp (setOwn hC4r 1 "instanceProp" (.number 9)) (.ref 3)
        "instanceProp" = .number 2 ∧
      ¬ getProp (setOwn hC4r 1 "instanceProp" (.number 9)) (.ref 3)
        "instanceProp" = .number 9) ∧
    (o env0 hC5b [.ref 2, .undef] = some (hC5r, .ref 3) ∧
      sharePrim hC5r (.ref 2) (.str "cap") (.number 9) =
        some (setOwn hC5r 1 "cap" (.number 9)) ∧
      getProp (setOwn hC5r 1 "cap" (.number 9)) (.ref 3) "cap" = .undef ∧
      ¬ getProp (setOwn hC5r 1 "cap" (.number 9)) (.ref 3) "cap" =
        .number 9) := by decide

/-- Any successful `oBuild` decomposes as: a base heap (the input heap, or
the input heap plus a freshly allocated empty CapabilitySet), then the
positional construction over it. -/
theorem oBuild_decompose (h : Heap) (args : List JSVal) (b : BuildOut)
    (hb : oBuild h args = some b) :
    ∃ h1 : Heap, (h1 = h ∨ h1 = h ++ [⟨[], none⟩]) ∧
      b.heap = oPosHeap h1 b.protoAddr
        (((mapOptionsN h oNames args).lookup "instanceProperties").getD
          .undef) ∧
      b.objAddr = List.length h1 := by
  simp only [oBuild] at hb
  split at hb
  · exact absurd hb (by simp)
  · rename_i h1 p heq
    cases hb
    refine ⟨h1, ?_, rfl, by
      show List.length (blessAt h1 p) = List.length h1
      exact length_blessAt h1 p⟩
    split at heq
    · split at heq
      · injection heq with h2
        exact Or.inl (congrArg Prod.fst h2).symm
      · exact absurd heq (by simp)
    · injection heq with h2
      exact Or.inr (congrArg Prod.fst h2).symm

/-- C10 (amended): every constructed object whose resolved instance
properties do not enumerate a `proto` entry carries the own `proto`
back-reference to the CapabilitySet it delegates to, and `share` through it
writes onto that CapabilitySet. -/
theorem proto_backref_amended (h : Heap) (args : List JSVal) (b : BuildOut)
    (hb : oBuild h args = some b)
    (hnp : ∀ h1 : Heap, (h1 = h ∨ h1 = h ++ [⟨[], none⟩]) →
      (enumOf (oPosMid h1 b.protoAddr)
        (((mapOptionsN h oNames args).lookup "instanceProperties").getD
          .undef)).lookup "proto" = none) :
    getOwn b.heap b.objAddr "proto" = some (.ref b.protoAddr) ∧
    (∃ ob, getObj b.heap b.objAddr = some ob ∧
      ob.iproto = some b.protoAddr) ∧
    (∀ k w, sharePrim b.heap (.ref b.objAddr) (.str k) w =
      some (setOwn b.heap b.protoAddr k w)) := by
  obtain ⟨h1, hd, hheap, haddr⟩ := oBuild_decompose h args b hb
  have hobj : getObj b.heap b.objAddr =
      some ⟨setEntries [("proto", .ref b.protoAddr)]
        (enumOf (oPosMid h1 b.protoAddr)
          (((mapOptionsN h oNames args).lookup "instanceProperties").getD
            .undef)), some b.protoAddr⟩ := by
    rw [hheap, haddr]
    exact getObj_oPosHeap_new h1 b.protoAddr _
  have hown : getOwn b.heap b.objAddr "proto" = some (.ref b.protoAddr) := by
    rw [getOwn_eq _ _ _ hobj]
    rw [setEntries_lookup _ "proto" (enumOf_nodup (oPosMid h1 b.protoAddr) _)]
    rw [hnp h1 hd]
    rfl
  refine ⟨hown, ⟨_, hobj, rfl⟩, fun k w => ?_⟩
  rw [sharePrim, getProp_own_hit b.heap b.objAddr "proto" _ (.ref b.protoAddr)
    hobj (by
      have := hown
      rw [getOwn_eq _ _ _ hobj] at this
      exact this)]

/-- C10 counterexample: when the caller-supplied instance properties
themselves contain a `proto` entry (42), it overwrites the back-reference:
the constructed object delegates to the CapabilitySet at address 1, yet its
own `proto` value is 42, and `share` through it fails rather than writing
to the CapabilitySet. -/
theorem proto_backref_cex :
    o env0 hC10 [.ref 1, .ref 2] = some (hC10r, .ref 3) ∧
    getObj hC10r 3 = some ⟨[("proto", .number 42)], some 1⟩ ∧
    getOwn hC10r 3 "proto" = some (.number 42) ∧
    ¬ getOwn hC10r 3 "proto" = some (.ref 1) ∧
    sharePrim hC10r (.ref 3) (.str "x") (.number 1) = none := by decide

/-- C3: with `ignoreOptions` set, the produced object's instance entries
come from `defaultProperties` alone (the very object, options never
consulted); otherwise they are a fresh merge of `defaultProperties`
overridden by `options`; in both modes neither the `defaultProperties`
object nor the `options` object is mutated by the call (default
`instanceInit`). -/
theorem factory_ignoreOptions_and_merge (env : FunEnv) (h0 : Heap)
    (st : FactoryState) (options : JSVal) (sp : Nat) (spo : JSObj)
    (hii : st.instanceInit = .fn 1)
    (hsp : st.sharedProperties = .ref sp)
    (hspo : getObj h0 sp = some spo) (hspp : spo.iproto = none)
    (hwf : HeapWF h0) (hiolt : st.initObj < List.length h0)
    (hmissS : ∀ n ∈ oNames,
      truthy ((spo.props.lookup n).getD .undef) = false)
    (hmissI : ∀ n ∈ oNames, (enumOf h0 (.ref st.initObj)).lookup n = none)
    (hdp : truthy st.defaultProperties = true →
      ∃ d, st.defaultProperties = .ref d ∧ d < List.length h0 ∧
        sp ∉ chainListF h0 (d + 1) d)
    (hq : ∀ q, options = .ref q →
      q < List.length h0 ∧ sp ∉ chainListF h0 (q + 1) q) :
    ∃ h1 a1, factoryCall env h0 st options = some (h1, .ref a1) ∧
      (∀ k, k ≠ "proto" → getOwn h1 a1 k =
        (if truthy st.ignoreOptions = true
         then (enumOf h0 st.defaultProperties).lookup k
         else optOr ((enumOf h0 options).lookup k)
           ((enumOf h0 st.defaultProperties).lookup k))) ∧
      (∀ d, st.defaultProperties = .ref d → d ≠ sp →
        getObj h1 d = getObj h0 d) ∧
      (∀ q, options = .ref q → q ≠ sp → getObj h1 q = getObj h0 q) := by
  obtain ⟨h4, ipv, hfc, hpres, hlen, hwf4, henum⟩ :=
    fcPos_full h0 st sp options spo hspo hwf hiolt hdp hq
  have hbuild := fcBuild_pos env h0 st options sp spo hsp hspo hspp hwf
    hiolt hmissS hmissI
  rw [hfc] at hbuild
  dsimp only at hbuild
  refine ⟨oPosHeap h4 sp ipv, List.length h4,
    factoryCall_default env h0 st options _ _ hii hbuild, ?_, ?_, ?_⟩
  · intro k hk
    rw [getOwn_oPosHeap_new h4 sp ipv k hk]
    exact henum k
  · intro d hdeq hdne
    have hdt : truthy st.defaultProperties = true := by rw [hdeq]; rfl
    obtain ⟨d', hd'eq, hdlt, _⟩ := hdp hdt
    rw [hdeq] at hd'eq
    have hdd : d = d' := by
      injection hd'eq.symm with h2
      exact h2.symm
    subst hdd
    rw [getObj_oPosHeap_old h4 sp ipv d (by omega) hdne]
    exact hpres d hdlt hdne
  · intro q hqe hqne
    obtain ⟨hqlt, _⟩ := hq q hqe
    rw [getObj_oPosHeap_old h4 sp ipv q (by omega) hqne]
    exact hpres q hqlt hqne

/-- C3 witness: a factory with `ignoreOptions` set and defaults
`{foo: 'bar'}`, invoked with options `{foo: 'baz'}`, yields an instance
with `foo = 'bar'`, mutating neither the defaults object nor the options
object; the spec's exact example pipeline evaluates to 'bar' as well. -/
theorem factory_ignoreOptions_and_merge_witness :
    factoryCall env0 h0w stW (.ref 3) = some (hW1, .ref 6) ∧
    getOwn hW1 6 "foo" = some (.str "bar") ∧
    getObj hW1 2 = getObj h0w 2 ∧
    getObj hW1 3 = getObj h0w 3 ∧
    (match factoryMake env0 hF3 [.ref 1] with
     | some (h1, st) =>
        (match factoryCall env0 h1 st (.ref 3) with
         | some (h2, .ref a) => getProp h2 (.ref a) "foo"
         | _ => .undef)
     | none => .undef) = .str "bar" := by
  have hm := factory_ignoreOptions_and_merge env0 h0w stW (.ref 3) 1
    ⟨[], none⟩ rfl rfl (by decide) rfl (by decide) (by decide) (by decide)
    (by decide) (fun _ => ⟨2, rfl, by decide, by decide⟩)
    (fun q hqe => by
      injection hqe with h2
      subst h2
      exact ⟨by decide, by decide⟩)
  obtain ⟨h1, a1, hcall, hk, hd, hq⟩ := hm
  have hconc : factoryCall env0 h0w stW (.ref 3) = some (hW1, .ref 6) := by
    decide
  rw [hconc] at hcall
  injection hcall with hp
  injection hp with hh ha
  injection ha with ha2
  subst hh
  subst ha2
  refine ⟨hconc, ?_, hd 2 rfl (by decide), hq 3 rfl (by decide), by decide⟩
  rw [hk "foo" (by decide)]
  decide

/-- C10 amended witness: with instance properties `{instanceProp: 2}` (no
`proto` entry) the Instance owns `proto = ref 1` (its CapabilitySet), and
`share` through it writes onto that CapabilitySet. -/
theorem proto_backref_amended_witness :
    getOwn hC4r 3 "proto" = some (.ref 1) ∧
    (∃ ob, getObj hC4r 3 = some ob ∧ ob.iproto = some 1) ∧
    sharePrim hC4r (.ref 3) (.str "extra") (.number 8) =
      some (setOwn hC4r 1 "extra" (.number 8)) := by
  have hb : oBuild hC4 [.ref 1, .ref 2] = some ⟨hC4r, 3, 1, .fn 1⟩ := by
    decide
  have hm := proto_backref_amended hC4 [.ref 1, .ref 2] ⟨hC4r, 3, 1, .fn 1⟩
    hb (by
      intro h1 hd
      rcases hd with hd | hd <;> subst hd <;> decide)
  exact ⟨hm.1, hm.2.1, hm.2.2 "extra" (.number 8)⟩

/-- C4 (amended): with disjoint shared/instance keys, neither containing
'proto', the constructed object's own keys are exactly the back-reference
'proto' followed by the instance keys; every shared key is reachable
through delegation and is not an own key. -/
theorem construct_ownKeys_amended (env : FunEnv) (h : Heap) (s i : Nat)
    (so io : JSObj) (hs : getObj h s = some so) (hi : getObj h i = some io)
    (hiip : io.iproto = none) (hne : i ≠ s)
    (hnd : (io.props.map Prod.fst).Nodup)
    (hdisj : ∀ k ∈ so.props.map Prod.fst, k ∉ io.props.map Prod.fst)
    (hpS : "proto" ∉ so.props.map Prod.fst)
    (hpI : "proto" ∉ io.props.map Prod.fst)
    (hmiss : ∀ n ∈ oNames, truthy (getProp h (.ref s) n) = false) :
    o env h [.ref s, .ref i] =
      some (oPosHeap h s (.ref i), .ref (List.length h)) ∧
    ownKeys (oPosHeap h s (.ref i)) (List.length h) =
      "proto" :: io.props.map Prod.fst ∧
    ∀ k ∈ so.props.map Prod.fst,
      hasOwn (oPosHeap h s (.ref i)) (List.length h) k = false ∧
      hasChainProp (oPosHeap h s (.ref i)) (List.length h) k = true := by
  have hslt : s < List.length h := lt_of_getObj_some h s so hs
  have hilt : i < List.length h := lt_of_getObj_some h i io hi
  have hienum : enumOf (oPosMid h s) (.ref i) = io.props := by
    have hio1 : getObj (oPosMid h s) i = some io := by
      rw [getObj_oPosMid_old h s i hilt hne]
      exact hi
    rw [enumOf_iproto_none _ i io hio1 hiip]
    exact dedupKeys_eq_self io.props [] hnd (by simp)
  have hobj : getObj (oPosHeap h s (.ref i)) (List.length h) =
      some ⟨setEntries [("proto", .ref s)] io.props, some s⟩ := by
    rw [getObj_oPosHeap_new h s (.ref i), hienum]
  have hownlookup : ∀ k, k ∈ so.props.map Prod.fst →
      (setEntries [("proto", .ref s)] io.props).lookup k = none := by
    intro k hk
    rw [setEntries_lookup _ k hnd, lookup_none_of_not_mem _ k (hdisj k hk),
      lookup_cons, if_neg (fun hc : k = "proto" => hpS (hc ▸ hk))]
    rfl
  refine ⟨o_pos env h s (.ref i) hmiss, ?_, ?_⟩
  · rw [ownKeys_eq _ _ _ hobj]
    rw [setEntries_keys io.props hnd _ (fun k hk => by
      rw [lookup_cons, if_neg (fun hc : k = "proto" => hpI (hc ▸ hk))]
      rfl)]
    rfl
  · intro k hk
    constructor
    · rw [hasOwn, getOwn_eq _ _ _ hobj, hownlookup k hk]
      rfl
    · obtain ⟨v, hv⟩ := Option.isSome_iff_exists.mp
        (setEntries_isSome_mono _ k _
          (setEntry_isSome_mono so.props "share" k (.fn 0)
            (lookup_isSome_of_mem so.props k hk)))
      rw [hasChainProp,
        chainFindF_step (oPosHeap h s (.ref i)) (List.length h)
          (List.length h) k _ s hobj (hownlookup k hk) rfl,
        chainFindF_found (oPosHeap h s (.ref i)) (List.length h) s k
          _ v (by omega) (by
            rw [getObj_oPosHeap_sp h s (.ref i) hslt]
            exact getObj_blessAt_raw h s so hs) hv]
      rfl

/-- C4 amended witness: shared `{sharedProp: 1}`, instance
`{instanceProp: 2}`: own keys are `["proto", "instanceProp"]`, and
`sharedProp` is reachable through delegation without being own. -/
theorem construct_ownKeys_amended_witness :
    ownKeys (oPosHeap hC4 1 (.ref 2)) (List.length hC4) =
      ["proto", "instanceProp"] ∧
    hasOwn (oPosHeap hC4 1 (.ref 2)) (List.length hC4) "sharedProp" =
      false ∧
    hasChainProp (oPosHeap hC4 1 (.ref 2)) (List.length hC4) "sharedProp" =
      true := by
  have hm := construct_ownKeys_amended env0 hC4 1 2
    ⟨[("sharedProp", .number 1)], none⟩
    ⟨[("instanceProp", .number 2)], none⟩
    (by decide) (by decide) rfl (by decide) (by decide)
    (by decide) (by decide) (by decide) (by decide)
  refine ⟨by rw [hm.2.1]; rfl, ?_, ?_⟩
  · exact (hm.2.2 "sharedProp" (by decide)).1
  · exact (hm.2.2 "sharedProp" (by decide)).2

/-- C5 (amended): sharing a non-shadowed name through a receiver whose
`proto` lookup resolves to the blessed CapabilitySet S installs the value
on S, making it immediately visible by delegation on every Instance
delegating to S without becoming an own key and without reconstruction. -/
theorem share_visibility_amended (h : Heap) (s r i : Nat) (k : String)
    (v : JSVal) (so oi : JSObj)
    (hblessed : getOwn h s "share" = some (.fn 0))
    (hso : getObj h s = some so)
    (hr : getProp h (.ref r) "proto" = .ref s)
    (hio : getObj h i = some oi) (hip : oi.iproto = some s)
    (hshadow : oi.props.lookup k = none)
    (hlt : s < i) :
    sharePrim h (.ref r) (.str k) v = some (setOwn h s k v) ∧
    getProp (setOwn h s k v) (.ref i) k = v ∧
    hasOwn (setOwn h s k v) i k = false := by
  have hio1 : getObj (setOwn h s k v) i = some oi := by
    rw [getObj_setOwn_ne h s i k v (by omega)]
    exact hio
  refine ⟨by rw [sharePrim, hr], ?_, ?_⟩
  · exact getProp_delegate (setOwn h s k v) i s k oi _ v hio1 hshadow hip
      (getObj_setOwn_self h s k v so hso)
      (by rw [setEntry_lookup, if_pos rfl]) hlt
  · rw [hasOwn, getOwn_eq _ _ _ hio1, hshadow]
    rfl

/-- C5 amended witness: sharing `newCap = 7` through the Instance at 3
(whose back-reference is the blessed CapabilitySet at 1) makes `newCap`
visible on that Instance by delegation, not as an own key. -/
theorem share_visibility_amended_witness :
    sharePrim hC4r (.ref 3) (.str "newCap") (.number 7) =
      some (setOwn hC4r 1 "newCap" (.number 7)) ∧
    getProp (setOwn hC4r 1 "newCap" (.number 7)) (.ref 3) "newCap" =
      .number 7 ∧
    hasOwn (setOwn hC4r 1 "newCap" (.number 7)) 3 "newCap" = false := by
  exact share_visibility_amended hC4r 1 3 3 "newCap" (.number 7)
    ⟨[("sharedProp", .number 1), ("share", .fn 0)], none⟩
    ⟨[("proto", .ref 1), ("instanceProp", .number 2)], some 1⟩
    (by decide) (by decide) (by decide) (by decide) rfl (by decide)
    (by decide)

/-- C2: every invocation of one factory merges the factory-scoped
instance's entries onto the same original `sharedProperties` object, in
place; across two successive invocations, both produced instances delegate
to that same object, each merged entry (other than the installed `share`
and away from the plugin registry's keys) is owned by it with the
factory-scoped value, and a capability installed via `share` through the
first instance (whose `proto` back-reference resolves to the shared
object) is immediately visible through delegation on the second — shared
state mutated through one instance is observed through the other. -/
theorem factory_shared_capability_set (env : FunEnv) (h0 : Heap)
    (st : FactoryState) (o1 o2 : JSVal) (sp : Nat) (spo reg : JSObj)
    (hii : st.instanceInit = .fn 1)
    (hsp : st.sharedProperties = .ref sp)
    (hspo : getObj h0 sp = some spo) (hspp : spo.iproto = none)
    (hwf : HeapWF h0)
    (hreg : getObj h0 PLUG = some reg) (hregp : reg.iproto = none)
    (hplugne : sp ≠ PLUG)
    (hiolt : st.initObj < List.length h0)
    (hione : sp ∉ chainListF h0 (st.initObj + 1) st.initObj)
    (hmissS : ∀ n ∈ oNames,
      truthy ((spo.props.lookup n).getD .undef) = false)
    (hmissI : ∀ n ∈ oNames, (enumOf h0 (.ref st.initObj)).lookup n = none)
    (hmissP : ∀ n ∈ oNames, reg.props.lookup n = none) :
    ∃ h1 a1 h2 a2,
      factoryCall env h0 st o1 = some (h1, .ref a1) ∧
      factoryCall env h1 st o2 = some (h2, .ref a2) ∧
      (∃ ob1, getObj h2 a1 = some ob1 ∧ ob1.iproto = some sp) ∧
      (∃ ob2, getObj h2 a2 = some ob2 ∧ ob2.iproto = some sp) ∧
      (∀ k v, (enumOf h0 (.ref st.initObj)).lookup k = some v →
        k ≠ "share" → reg.props.lookup k = none →
        getOwn h2 sp k = some v) ∧
      (∀ k w, getOwn h2 a1 "proto" = some (.ref sp) →
        getOwn h2 a2 k = none →
        sharePrim h2 (.ref a1) (.str k) w = some (setOwn h2 sp k w) ∧
        getProp (setOwn h2 sp k w) (.ref a2) k = w) := by
  have hsplt : sp < List.length h0 := lt_of_getObj_some h0 sp spo hspo
  have hpluglt : PLUG < List.length h0 := lt_of_getObj_some h0 PLUG reg hreg
  have hplugne' : PLUG ≠ sp := fun hc => hplugne hc.symm
  have hndreg : ((dedupKeys reg.props []).map Prod.fst).Nodup :=
    (dedupKeys_nodup reg.props []).1
  have hndE : ((enumOf h0 (.ref st.initObj)).map Prod.fst).Nodup :=
    enumOf_nodup h0 (.ref st.initObj)
  obtain ⟨h4, ipv, hfc, hpres, hlen, hsp4, hwf4⟩ :=
    fcPos_shape h0 st sp o1 spo hspo hwf hiolt
  have hbuild1 := fcBuild_pos env h0 st o1 sp spo hsp hspo hspp hwf
    hiolt hmissS hmissI
  rw [hfc] at hbuild1
  dsimp only at hbuild1
  have hcall1 := factoryCall_default env h0 st o1 _ _ hii hbuild1
  have hsp4lt : sp < List.length h4 := by omega
  have hsp4n : getObj h4 sp =
      some ⟨setEntries spo.props (enumOf h0 (.ref st.initObj)), none⟩ := by
    rw [hsp4, hspp]
  have hreg4 : getObj h4 PLUG = some reg := by
    rw [hpres PLUG hpluglt hplugne']
    exact hreg
  have hobj1sp : getObj (oPosHeap h4 sp ipv) sp =
      some ⟨setEntries (setEntry (setEntries spo.props
          (enumOf h0 (.ref st.initObj))) "share" (.fn 0))
        (dedupKeys reg.props []), none⟩ := by
    rw [getObj_oPosHeap_sp h4 sp ipv hsp4lt]
    exact getObj_blessAt_self h4 sp _ reg hsp4n hreg4 hregp hplugne
  have hlook1 : ∀ k, k ≠ "share" →
      (setEntries (setEntry (setEntries spo.props
          (enumOf h0 (.ref st.initObj))) "share" (.fn 0))
        (dedupKeys reg.props [])).lookup k =
      optOr (reg.props.lookup k)
        (optOr ((enumOf h0 (.ref st.initObj)).lookup k)
          (spo.props.lookup k)) := by
    intro k hk
    rw [setEntries_lookup _ k hndreg,
      dedupKeys_lookup reg.props [] k (List.not_mem_nil k),
      setEntry_lookup, if_neg hk, setEntries_lookup _ k hndE]
  have hwf1 : HeapWF (oPosHeap h4 sp ipv) :=
    HeapWF_oPosHeap h4 sp ipv hwf4 hsp4lt
  have hL1 : List.length (oPosHeap h4 sp ipv) = List.length h4 + 1 :=
    length_oPosHeap h4 sp ipv
  have hiolt1 : st.initObj < List.length (oPosHeap h4 sp ipv) := by omega
  have hpres1 : ∀ b, b < List.length h0 → b ≠ sp →
      getObj (oPosHeap h4 sp ipv) b = getObj h0 b := by
    intro b hb hbn
    rw [getObj_oPosHeap_old h4 sp ipv b (by omega) hbn]
    exact hpres b hb hbn
  have henumI1 : enumOf (oPosHeap h4 sp ipv) (.ref st.initObj) =
      enumOf h0 (.ref st.initObj) :=
    enumOf_preserved h0 _ sp st.initObj hpres1 hwf hiolt hione
  have hmissI1 : ∀ n ∈ oNames,
      (enumOf (oPosHeap h4 sp ipv) (.ref st.initObj)).lookup n = none := by
    intro n hn
    rw [henumI1]
    exact hmissI n hn
  have hnshare : ∀ n ∈ oNames, n ≠ "share" := by decide
  have hmissS1 : ∀ n ∈ oNames,
      truthy (((setEntries (setEntry (setEntries spo.props
          (enumOf h0 (.ref st.initObj))) "share" (.fn 0))
        (dedupKeys reg.props [])).lookup n).getD .undef) = false := by
    intro n hn
    rw [hlook1 n (hnshare n hn), hmissP n hn, hmissI n hn]
    exact hmissS n hn
  obtain ⟨h4', ipv', hfc', hpres', hlen', hsp4', hwf4'⟩ :=
    fcPos_shape (oPosHeap h4 sp ipv) st sp o2
      ⟨setEntries (setEntry (setEntries spo.props
          (enumOf h0 (.ref st.initObj))) "share" (.fn 0))
        (dedupKeys reg.props []), none⟩ hobj1sp hwf1 hiolt1
  have hbuild2 := fcBuild_pos env (oPosHeap h4 sp ipv) st o2 sp
    ⟨setEntries (setEntry (setEntries spo.props
        (enumOf h0 (.ref st.initObj))) "share" (.fn 0))
      (dedupKeys reg.props []), none⟩ hsp hobj1sp rfl hwf1 hiolt1
    hmissS1 hmissI1
  rw [hfc'] at hbuild2
  dsimp only at hbuild2
  have hcall2 :=
    factoryCall_default env (oPosHeap h4 sp ipv) st o2 _ _ hii hbuild2
  have ha1lt : List.length h4 < List.length h4' := by omega
  have hsp4'lt : sp < List.length h4' := by omega
  have ha1ne : List.length h4 ≠ sp := by omega
  have hreg4' : getObj h4' PLUG = some reg := by
    rw [hpres' PLUG (by omega) hplugne', hpres1 PLUG hpluglt hplugne']
    exact hreg
  have hsp4'n : getObj h4' sp =
      some ⟨setEntries (setEntries (setEntry (setEntries spo.props
          (enumOf h0 (.ref st.initObj))) "share" (.fn 0))
        (dedupKeys reg.props []))
        (enumOf h0 (.ref st.initObj)), none⟩ := by
    have h5 := hsp4'
    rw [henumI1] at h5
    exact h5
  have hobj2sp : getObj (oPosHeap h4' sp ipv') sp =
      some ⟨setEntries (setEntry (setEntries (setEntries (setEntry
          (setEntries spo.props (enumOf h0 (.ref st.initObj)))
            "share" (.fn 0)) (dedupKeys reg.props []))
          (enumOf h0 (.ref st.initObj))) "share" (.fn 0))
        (dedupKeys reg.props []), none⟩ := by
    rw [getObj_oPosHeap_sp h4' sp ipv' hsp4'lt]
    exact getObj_blessAt_self h4' sp _ reg hsp4'n hreg4' hregp hplugne
  have hga1 : getObj (oPosHeap h4' sp ipv') (List.length h4) =
      some ⟨setEntries [("proto", .ref sp)] (enumOf (oPosMid h4 sp) ipv),
        some sp⟩ := by
    rw [getObj_oPosHeap_old h4' sp ipv' (List.length h4) ha1lt ha1ne,
      hpres' (List.length h4) (by omega) ha1ne]
    exact getObj_oPosHeap_new h4 sp ipv
  refine ⟨oPosHeap h4 sp ipv, List.length h4,
    oPosHeap h4' sp ipv', List.length h4', hcall1, hcall2,
    ⟨_, hga1, rfl⟩, ⟨_, getObj_oPosHeap_new h4' sp ipv', rfl⟩, ?_, ?_⟩
  · intro k v hkv hkshare hkreg
    rw [getOwn_eq _ _ _ hobj2sp,
      setEntries_lookup _ k hndreg,
      dedupKeys_lookup reg.props [] k (List.not_mem_nil k), hkreg,
      setEntry_lookup, if_neg hkshare,
      setEntries_lookup _ k hndE, hkv]
    rfl
  · intro k w hproto hshadow
    rw [getOwn_eq _ _ _ hga1] at hproto
    have hgp : getProp (oPosHeap h4' sp ipv')
        (.ref (List.length h4)) "proto" = .ref sp :=
      getProp_own_hit _ _ _ _ _ hga1 hproto
    constructor
    · unfold sharePrim
      rw [hgp]
    · have ha2ne : List.length h4' ≠ sp := by omega
      have hga2 : getObj (setOwn (oPosHeap h4' sp ipv') sp k w)
          (List.length h4') =
          some ⟨setEntries [("proto", .ref sp)]
            (enumOf (oPosMid h4' sp) ipv'), some sp⟩ := by
        rw [getObj_setOwn_ne _ _ _ _ _ ha2ne]
        exact getObj_oPosHeap_new h4' sp ipv'
      have hla2 : (setEntries [("proto", .ref sp)]
          (enumOf (oPosMid h4' sp) ipv')).lookup k = none := by
        rw [getOwn_eq _ _ _ (getObj_oPosHeap_new h4' sp ipv')] at hshadow
        exact hshadow
      have hgsp := getObj_setOwn_self (oPosHeap h4' sp ipv') sp k w _
        hobj2sp
      exact getProp_delegate _ (List.length h4') sp k _ _ w hga2 hla2 rfl
        hgsp (by rw [setEntry_lookup, if_pos rfl]) (by omega)

/-- C2 witness: a factory over `hC2` whose factory-scoped instance owns a
`getCount` accessor; two invocations yield instances at 6 and at 9, both
delegating to the shared object at 1, which ends up owning `getCount`;
installing `count = 6` via `share` through the first instance makes it
read as 6 through the second. -/
theorem factory_shared_capability_set_witness :
    factoryCall env0 hC2 stC2 .undef = some (hC2a, .ref 6) ∧
    factoryCall env0 hC2a stC2 .undef = some (hC2b, .ref 9) ∧
    (∃ ob1, getObj hC2b 6 = some ob1 ∧ ob1.iproto = some 1) ∧
    (∃ ob2, getObj hC2b 9 = some ob2 ∧ ob2.iproto = some 1) ∧
    getOwn hC2b 1 "getCount" = some (.fn 2) ∧
    getProp hC2b (.ref 9) "getCount" = .fn 2 ∧
    sharePrim hC2b (.ref 6) (.str "count") (.number 6) =
      some (setOwn hC2b 1 "count" (.number 6)) ∧
    getProp (setOwn hC2b 1 "count" (.number 6)) (.ref 9) "count" =
      .number 6 := by
  have hm := factory_shared_capability_set env0 hC2 stC2 .undef .undef 1
    ⟨[], none⟩ ⟨[], none⟩ rfl rfl (by decide) rfl (by decide) (by decide)
    rfl (by decide) (by decide) (by decide) (by decide) (by decide)
    (by decide)
  obtain ⟨h1, a1, h2, a2, hc1, hc2, hob1, hob2, hmerge, hshare⟩ := hm
  have he1 : factoryCall env0 hC2 stC2 .undef = some (hC2a, .ref 6) := by
    decide
  rw [he1] at hc1
  injection hc1 with hp
  injection hp with hh ha
  injection ha with ha2
  subst hh
  subst ha2
  have he2 : factoryCall env0 hC2a stC2 .undef = some (hC2b, .ref 9) := by
    decide
  rw [he2] at hc2
  injection hc2 with hp2
  injection hp2 with hh2 hb
  injection hb with hb2
  subst hh2
  subst hb2
  have hs := hshare "count" (.number 6) (by decide) (by decide)
  exact ⟨he1, he2, hob1, hob2,
    hmerge "getCount" (.fn 2) (by decide) (by decide) (by decide),
    by decide, hs.1, hs.2⟩
